import Mathlib

/-!
Shallow embedding of the BMPP protocol analyzer (the `bmpp-agents-rs`
repository): the AST node model (`src/protocol/ast.rs`), the flow-validation
passes (`src/transpiler/validation/mod.rs`), the composition registry
(`src/transpiler/composition.rs`) and the PEG parser
(`src/transpiler/parser/mod.rs`), together with theorems settling the
specification claims about them.

Modelling conventions:
* Rust `HashMap`s become association lists (`List (key × value)`); `insert`
  replaces the value at an existing key in place, otherwise appends.  The
  list order is the canonical enumeration order; where the Rust code's
  behaviour depends on the (randomized) hash iteration order, the functions
  here take the enumeration explicitly so that order dependence can be
  stated and proved.
* Rust `HashSet`s become duplicate-free lists in insertion order.
* Fallible Rust functions returning `anyhow::Result` become `Except VError`,
  with `VError` a structured rendering of the error messages built at each
  `anyhow!` site.
* Recursion that Rust performs with loops or call recursion is modelled
  with explicit fuel where necessary; the fuel bounds are chosen large
  enough that exhaustion is unreachable for the executions being modelled.
-/

namespace Bmpp

/-- The `AstNodeType` enum from `src/protocol/ast.rs`.  The source's
`Annotation` variant is called `Annot` here (the full word is unavailable);
it plays no semantic role in validation. -/
inductive AstNodeType where
  | Program
  | Protocol
  | ProtocolName
  | Annot
  | RolesSection
  | RoleDecl
  | ParametersSection
  | ParameterDecl
  | InteractionSection
  | InteractionItem
  | StandardInteraction
  | ProtocolComposition
  | ProtocolReference
  | Identifier
  | BasicType
  | ParameterFlow
  | RoleRef
  | ActionName
deriving DecidableEq, Repr

/-- The `AstNode` struct from `src/protocol/ast.rs`: a variant tag, ordered
children, and a string-keyed property bag.  The source's `line`, `column`
and (unused) `parent` fields carry no semantic content for validation and
are omitted. -/
inductive AstNode where
  | node (nodeType : AstNodeType) (children : List AstNode)
      (props : List (String × String))

def AstNode.nodeType : AstNode → AstNodeType
  | .node t _ _ => t

def AstNode.children : AstNode → List AstNode
  | .node _ c _ => c

def AstNode.props : AstNode → List (String × String)
  | .node _ _ p => p

/-- First-match lookup in an association list (the model of
`HashMap::get`). -/
def mapLookup {β : Type} : List (String × β) → String → Option β
  | [], _ => none
  | (k, v) :: rest, key => if k = key then some v else mapLookup rest key

/-- `AstNode::get_string`. -/
def AstNode.getString (n : AstNode) (key : String) : Option String :=
  mapLookup n.props key

/-- Model of `HashMap::insert`: replace the value at an existing key in
place, otherwise append the new binding. -/
def mapInsert {β : Type} : List (String × β) → String → β → List (String × β)
  | [], key, v => [(key, v)]
  | (k, w) :: rest, key, v =>
    if k = key then (key, v) :: rest else (k, w) :: mapInsert rest key v

/-- Model of `HashSet::insert`: append if absent (insertion order kept). -/
def insertSet (s : List String) (x : String) : List String :=
  if x ∈ s then s else s ++ [x]

/-- Structured rendering of the `anyhow!` errors raised by the analyzer
(`src/transpiler/validation/mod.rs`).  Each constructor corresponds to one
`anyhow!` site and carries the names interpolated into its message. -/
inductive VError where
  | expectedProgram
  | protocolNameNotFound
  | paramExtractFailed
  | undeclaredParameter (parameter interaction protocol : String)
  | invalidDirection (direction parameter interaction : String)
  | unreachable (interaction parameter protocol : String)
  | multipleProducers (parameter : String) (producers : List String)
      (protocol : String)
  | causalityViolation (protocol : String) (cyclePath : List String)
  | undefinedRoles (interaction protocol : String)
  | enactUnproduced (interaction parameter : String)
  | unknownProtocolRef (parent ref : String)
  | directRecursion (parent : String)
  | noProtocolRef (parent : String)
deriving DecidableEq, Repr

/-- Equality of analyzer verdicts is decidable (used to evaluate the
analyzer on concrete protocols inside proofs). -/
instance {ε α : Type} [DecidableEq ε] [DecidableEq α] :
    DecidableEq (Except ε α) := fun a b =>
  match a, b with
  | .ok x, .ok y =>
    if h : x = y then .isTrue (by rw [h]) else .isFalse (by simp [h])
  | .error x, .error y =>
    if h : x = y then .isTrue (by rw [h]) else .isFalse (by simp [h])
  | .ok _, .error _ => .isFalse (by simp)
  | .error _, .ok _ => .isFalse (by simp)

/-- `ParameterInfo` from the flow analyzer's derived semantic model. -/
structure ParameterInfo where
  name : String
  param_type : String
  producers : List String
  consumers : List String
deriving DecidableEq, Repr

/-- `ParameterFlow` (a direction/parameter pair) from the analyzer. -/
structure ParameterFlow where
  direction : String
  parameter : String
deriving DecidableEq, Repr

/-- `InteractionInfo` from the analyzer. -/
structure InteractionInfo where
  action : String
  from_role : String
  to_role : String
  parameter_flows : List ParameterFlow
deriving DecidableEq, Repr

/-- The parameter-info table: name ↦ `ParameterInfo`. -/
abbrev PMap := List (String × ParameterInfo)

/-- `extract_protocol_name`: the first `ProtocolName` child carrying a
`name` property. -/
def extract_protocol_name (protocol_node : AstNode) : Except VError String :=
  match protocol_node.children.findSome? (fun c =>
      if c.nodeType = .ProtocolName then c.getString "name" else none) with
  | some name => .ok name
  | none => .error .protocolNameNotFound

/-- `extract_parameter_info`: scan the declaration's children, the last
`Identifier` carrying a name and the last `BasicType` carrying a type win. -/
def extract_parameter_info (param_decl : AstNode) :
    Except VError (String × String) :=
  let st := param_decl.children.foldl
    (fun (st : Option String × Option String) c =>
      match c.nodeType with
      | .Identifier =>
        match c.getString "name" with
        | some nm => (some nm, st.2)
        | none => st
      | .BasicType =>
        match c.getString "type" with
        | some ty => (st.1, some ty)
        | none => st
      | _ => st) (none, none)
  match st with
  | (some n, some t) => .ok (n, t)
  | _ => .error .paramExtractFailed

/-- `extract_parameters`: walk a `ParametersSection`, recording each
declaration in the declared-set and the info table.  A repeated name
silently overwrites the earlier entry (`HashMap::insert`). -/
def extract_parameters (params_section : AstNode)
    (st : List String × PMap) : Except VError (List String × PMap) :=
  params_section.children.foldlM (fun st c =>
    if c.nodeType = .ParameterDecl then do
      let (nm, ty) ← extract_parameter_info c
      pure (insertSet st.1 nm,
        mapInsert st.2 nm ⟨nm, ty, [], []⟩)
    else pure st) st

/-- `extract_parameter_flow`: direction from the `direction` property
(defaulting to "unknown"), parameter from the last named `Identifier`
child (defaulting to "unknown").  The Rust function returns `Result` but
has no error path. -/
def extract_parameter_flow (n : AstNode) : ParameterFlow :=
  let dir := (n.getString "direction").getD "unknown"
  let par := n.children.foldl (fun acc c =>
    if c.nodeType = .Identifier then
      match c.getString "name" with
      | some nm => nm
      | none => acc
    else acc) "unknown"
  ⟨dir, par⟩

/-- State-machine step of `extract_standard_interaction` (one child). -/
def esiStep (st : String × String × String × List ParameterFlow)
    (c : AstNode) : String × String × String × List ParameterFlow :=
  let f := st.1
  let t := st.2.1
  let a := st.2.2.1
  let fl := st.2.2.2
  match c.nodeType with
  | .RoleRef =>
    match c.getString "name" with
    | some nm =>
      if f = "Unknown" then (nm, t, a, fl)
      else if t = "Unknown" then (f, nm, a, fl)
      else st
    | none => st
  | .ActionName =>
    match c.getString "name" with
    | some nm => (f, t, nm, fl)
    | none => st
  | .Identifier =>
    match c.getString "role" with
    | some r =>
      match c.getString "name" with
      | some nm =>
        if r = "from" then (nm, t, a, fl)
        else if r = "to" then (f, nm, a, fl)
        else if r = "action" then (f, t, nm, fl)
        else st
      | none => st
    | none =>
      match c.getString "name" with
      | some nm =>
        if f = "Unknown" then (nm, t, a, fl)
        else if t = "Unknown" then (f, nm, a, fl)
        else if a = "unknown_action" then (f, t, nm, fl)
        else st
      | none => st
  | .ParameterFlow => (f, t, a, fl ++ [extract_parameter_flow c])
  | _ => st

/-- `extract_standard_interaction`: fold the state machine over the node's
children starting from the "Unknown"/"unknown_action" placeholders. -/
def extract_standard_interaction (n : AstNode) : InteractionInfo :=
  let st := n.children.foldl esiStep ("Unknown", "Unknown", "unknown_action", [])
  ⟨st.2.2.1, st.1, st.2.1, st.2.2.2⟩

/-- The bare role-binding identifiers collected by
`extract_composition_interaction`: the named top-level `Identifier`
children, in order. -/
def compositionRoleBindings (n : AstNode) : List String :=
  n.children.foldl (fun acc c =>
    if c.nodeType = .Identifier then
      match c.getString "name" with
      | some nm => acc ++ [nm]
      | none => acc
    else acc) []

/-- `extract_composition_interaction`: the referenced protocol name becomes
the action, the first two bare role identifiers become the roles, and a
shortfall is padded with "System" (`roles.resize(2, "System")`). -/
def extract_composition_interaction (n : AstNode) : InteractionInfo :=
  let pname := n.children.foldl (fun acc c =>
    if c.nodeType = .ProtocolReference then
      c.children.foldl (fun acc2 rc =>
        if rc.nodeType = .Identifier then
          match rc.getString "name" with
          | some nm => nm
          | none => acc2
        else acc2) acc
    else acc) "UnknownProtocol"
  let roles := compositionRoleBindings n
  let flows := n.children.foldl (fun acc c =>
    if c.nodeType = .ParameterFlow then acc ++ [extract_parameter_flow c]
    else acc) []
  let roles2 := if roles.length < 2 then
      roles ++ List.replicate (2 - roles.length) "System"
    else roles
  ⟨pname, roles2.headD "System", (roles2.drop 1).headD "System", flows⟩

/-- `validate_and_update_parameter_usage`: reject undeclared parameters and
invalid directions; record producers (`out`) and consumers (`in`). -/
def validate_and_update_parameter_usage (interaction : InteractionInfo)
    (declared_parameters : List String) (parameter_info : PMap)
    (protocol_name : String) : Except VError PMap :=
  interaction.parameter_flows.foldlM (fun m fl =>
    if fl.parameter ∈ declared_parameters then
      match mapLookup m fl.parameter with
      | some info =>
        if fl.direction = "out" then
          pure (mapInsert m fl.parameter
            { info with producers := insertSet info.producers interaction.action })
        else if fl.direction = "in" then
          pure (mapInsert m fl.parameter
            { info with consumers := insertSet info.consumers interaction.action })
        else
          .error (.invalidDirection fl.direction fl.parameter interaction.action)
      | none => pure m
    else
      .error (.undeclaredParameter fl.parameter interaction.action protocol_name))
    parameter_info

/-- `extract_interactions`: walk the `InteractionSection`, extracting each
standard interaction or composition and updating the parameter table. -/
def extract_interactions (interaction_section : AstNode)
    (declared_parameters : List String)
    (st : List InteractionInfo × PMap) (protocol_name : String) :
    Except VError (List InteractionInfo × PMap) :=
  interaction_section.children.foldlM (fun st item =>
    if item.nodeType = .InteractionItem then
      item.children.foldlM (fun (st : List InteractionInfo × PMap) c =>
        match c.nodeType with
        | .StandardInteraction => do
          let i := extract_standard_interaction c
          let m ← validate_and_update_parameter_usage i declared_parameters
            st.2 protocol_name
          pure (st.1 ++ [i], m)
        | .ProtocolComposition => do
          let i := extract_composition_interaction c
          let m ← validate_and_update_parameter_usage i declared_parameters
            st.2 protocol_name
          pure (st.1 ++ [i], m)
        | _ => pure st) st
    else pure st) st

/-- ASCII upper-casing of one character (what `char::to_uppercase` does on
the ASCII identifiers the grammar produces). -/
def charUpper (c : Char) : Char :=
  if 'a' ≤ c ∧ c ≤ 'z' then Char.ofNat (c.toNat - 32) else c

/-- ASCII upper-casing of a string, modelling Rust's `to_uppercase` on the
identifiers the grammar produces. -/
def strUpper (s : String) : String :=
  String.mk (s.data.map charUpper)

/-- `is_pre_protocol_parameter`: the fixed case-insensitive whitelist. -/
def is_pre_protocol_parameter (param_name : String) : Bool :=
  let u := strUpper param_name
  u = "ID" || u = "TIMESTAMP" || u = "NONCE" || u = "SESSION_ID"

/-- `validate_unreachable_interactions`: fail on the first `in` flow whose
parameter has an empty producer set and is not pre-protocol knowledge. -/
def validate_unreachable_interactions (parameters : PMap)
    (interactions : List InteractionInfo) (protocol_name : String) :
    Except VError Unit :=
  interactions.foldlM (fun _ i =>
    i.parameter_flows.foldlM (fun _ fl =>
      if fl.direction = "in" then
        match mapLookup parameters fl.parameter with
        | some info =>
          if info.producers.isEmpty && !is_pre_protocol_parameter fl.parameter
          then .error (.unreachable i.action fl.parameter protocol_name)
          else pure ()
        | none => pure ()
      else pure ()) ()) ()

/-- `is_valid_parallel_production`: all interactions whose action name is in
the producer set must share one `from_role`.  (The source then computes an
intersection of the producers' non-pre-protocol inputs and discards it,
returning `true`; that dead computation is omitted.) -/
def is_valid_parallel_production (_parameter_name : String)
    (producers : List String) (interactions : List InteractionInfo) : Bool :=
  if producers.length ≤ 1 then true
  else
    match interactions.filter (fun i => i.action ∈ producers) with
    | [] => false
    | first :: rest =>
      (first :: rest).all (fun i => i.from_role = first.from_role)

/-- `validate_flow_consistency`.  The Rust pass iterates the parameter
`HashMap` in hash order; the enumeration order is the list order of the
`parameters` argument here.  (The "declared but never used" warning is a
`println!` and does not affect the verdict.) -/
def validate_flow_consistency (parameters : List (String × ParameterInfo))
    (interactions : List InteractionInfo) (protocol_name : String) :
    Except VError Unit :=
  parameters.foldlM (fun _ kv =>
    if kv.2.producers.length > 1 &&
        !is_valid_parallel_production kv.1 kv.2.producers interactions then
      .error (.multipleProducers kv.1 kv.2.producers protocol_name)
    else pure ()) ()

/-- Adjacency-list precedence graph (interaction name ↦ successor names,
with multiplicity, in push order). -/
abbrev Graph := List (String × List String)

/-- `is_parallel_branch_relationship`: the first interactions named
`producer` and `consumer` share a `from_role`, target different `to_role`s,
and some parameter that `producer` outputs and `consumer` inputs has more
than one producer, all of whose producing interactions come from a single
role. -/
def is_parallel_branch_relationship (producer consumer : String)
    (interactions : List InteractionInfo) (parameters : PMap) : Bool :=
  match interactions.find? (fun i => i.action = producer),
      interactions.find? (fun i => i.action = consumer) with
  | some prod, some co =>
    if prod.from_role = co.from_role && prod.to_role ≠ co.to_role then
      let prodOuts := (prod.parameter_flows.filter
        (fun f => f.direction = "out")).map (·.parameter)
      let consIns := (co.parameter_flows.filter
        (fun f => f.direction = "in")).map (·.parameter)
      let shared := prodOuts.filter (fun p => p ∈ consIns)
      shared.any (fun p =>
        match mapLookup parameters p with
        | some info =>
          info.producers.length > 1 &&
          ((interactions.filter (fun i => i.action ∈ info.producers)).map
            (·.from_role)).dedup.length = 1
        | none => false)
    else false
  | _, _ => false

/-- Insert a node with an empty adjacency list (`HashMap::insert`). -/
def graphInit (interactions : List InteractionInfo) : Graph :=
  interactions.foldl (fun g i => mapInsert g i.action []) []

/-- `precedence_graph.entry(k).or_default().push(v)`. -/
def graphPush : Graph → String → String → Graph
  | [], k, v => [(k, [v])]
  | (k', vs) :: rest, k, v =>
    if k' = k then (k, vs ++ [v]) :: rest else (k', vs) :: graphPush rest k v

/-- The precedence-graph construction inside `validate_causality`: an edge
producer → consumer for every `in` flow, unless the producer equals the
consumer or the pair is in a parallel-branch relationship. -/
def buildPrecedence (parameters : PMap)
    (interactions : List InteractionInfo) : Graph :=
  interactions.foldl (fun g i =>
    i.parameter_flows.foldl (fun g fl =>
      if fl.direction = "in" then
        match mapLookup parameters fl.parameter with
        | some info =>
          info.producers.foldl (fun g producer =>
            if producer ≠ i.action &&
                !is_parallel_branch_relationship producer i.action
                  interactions parameters then
              graphPush g producer i.action
            else g) g
        | none => g
      else g) g) (graphInit interactions)

/-- In-degree table initialised to zero for every interaction name. -/
def degreeInit (interactions : List InteractionInfo) : List (String × Nat) :=
  interactions.foldl (fun d i => mapInsert d i.action 0) []

/-- `*in_degree.get_mut(successor).unwrap() += 1` (absent keys are left
untouched; in the analyzer every successor is an interaction name and is
present). -/
def bumpDeg : List (String × Nat) → String → List (String × Nat)
  | [], _ => []
  | (k, n) :: rest, key =>
    if k = key then (k, n + 1) :: rest else (k, n) :: bumpDeg rest key

/-- The in-degree table of the precedence graph. -/
def degreesOf (g : Graph) (interactions : List InteractionInfo) :
    List (String × Nat) :=
  g.foldl (fun d kv => kv.2.foldl bumpDeg d) (degreeInit interactions)

/-- One decrement of Kahn's algorithm: `*degree -= 1; if *degree == 0 {
queue.push(successor) }`.  The queue is kept reversed (head = most recently
pushed = next popped, matching `Vec::push`/`Vec::pop`). -/
def kahnDec (st : List (String × Nat) × List String) (s : String) :
    List (String × Nat) × List String :=
  match mapLookup st.1 s with
  | some d =>
    let d' := d - 1
    let m' := mapInsert st.1 s d'
    if d' = 0 then (m', s :: st.2) else (m', st.2)
  | none => st

/-- The `while let Some(current) = queue.pop()` loop of `validate_causality`,
with explicit fuel (the loop pops each node at most once, so any fuel
exceeding the node count is enough). -/
def kahnLoop (g : Graph) :
    Nat → List (String × Nat) → List String → List String → List String
  | 0, _, _, ordered => ordered
  | _ + 1, _, [], ordered => ordered
  | fuel + 1, deg, current :: rq, ordered =>
    let succs := (mapLookup g current).getD []
    let st := succs.foldl kahnDec (deg, rq)
    kahnLoop g fuel st.1 st.2 (ordered ++ [current])

/-- Kahn's algorithm as run by `validate_causality`: initial queue = the
zero-degree nodes in table order. -/
def kahnRun (g : Graph) (interactions : List InteractionInfo) : List String :=
  let deg := degreesOf g interactions
  let q0 := ((deg.filter (fun kv => kv.2 = 0)).map (·.1)).reverse
  kahnLoop g (deg.length + 1) deg q0 []

/-- `dfs_find_cycle`, fuel-indexed.  Returns the final `visited`, the final
`path` and the cycle, if one was found.  `dfsKids` is the `for successor in
successors` loop threading the mutable state. -/
def dropBefore (x : String) : List String → List String
  | [] => []
  | a :: rest => if a = x then a :: rest else dropBefore x rest

mutual

def dfsNode (g : Graph) (fuel : Nat) (node : String)
    (visited path : List String) :
    List String × List String × Option (List String) :=
  match fuel with
  | 0 => (visited, path, none)
  | fuel' + 1 =>
    if node ∈ path then
      (visited, path, some (dropBefore node path ++ [node]))
    else if node ∈ visited then
      (visited, path, none)
    else
      match dfsKids g fuel' ((mapLookup g node).getD [])
          (visited ++ [node]) (path ++ [node]) with
      | (v', p', some c) => (v', p', some c)
      | (v', p', none) => (v', p'.dropLast, none)
termination_by (fuel, 0)

def dfsKids (g : Graph) (fuel : Nat) (kids : List String)
    (visited path : List String) :
    List String × List String × Option (List String) :=
  match kids with
  | [] => (visited, path, none)
  | s :: ss =>
    match dfsNode g fuel s visited path with
    | (v', p', some c) => (v', p', some c)
    | (v', p', none) => dfsKids g fuel ss v' p'
termination_by (fuel, kids.length + 1)

end

/-- Total node-occurrence count of a graph — a generous fuel bound for the
depth-first search (its recursion depth is bounded by the visited set). -/
def graphSize (g : Graph) : Nat :=
  g.foldl (fun n kv => n + 1 + kv.2.length) 0

/-- `find_cycle_path`.  The Rust function renders a string; here the error
payload is kept structured: the DFS cycle when one is found, otherwise the
remaining nodes, with `[]` standing for the "unknown cycle" message. -/
def find_cycle_path (g : Graph) (remaining : List String) : List String :=
  match remaining with
  | [] => []
  | r :: _ =>
    match dfsNode g (graphSize g + 1) r [] [] with
    | (_, _, some cyc) => cyc
    | (_, _, none) => remaining

/-- `validate_causality`: build the precedence graph, run Kahn's algorithm,
and fail with the cycle path when not every interaction is emitted. -/
def validate_causality (parameters : PMap)
    (interactions : List InteractionInfo) (protocol_name : String) :
    Except VError Unit :=
  let g := buildPrecedence parameters interactions
  let ordered := kahnRun g interactions
  if ordered.length ≠ interactions.length then
    let remaining := (interactions.map (·.action)).filter
      (fun a => a ∉ ordered)
    .error (.causalityViolation protocol_name (find_cycle_path g remaining))
  else .ok ()

/-- `validate_completeness` only prints warnings (`println!`) and always
returns `Ok`. -/
def validate_completeness (_parameters : PMap) (_protocol_name : String) :
    Except VError Unit :=
  .ok ()

/-- The error-producing part of `validate_enactability`: per interaction,
first the `"Unknown"`-placeholder role check, then the unproduced-parameter
check.  (The executable-set fixpoint that follows only prints warnings.) -/
def validate_enactability (interactions : List InteractionInfo)
    (parameters : PMap) (protocol_name : String) : Except VError Unit :=
  interactions.foldlM (fun _ i =>
    if i.from_role = "Unknown" || i.to_role = "Unknown" then
      .error (.undefinedRoles i.action protocol_name)
    else
      i.parameter_flows.foldlM (fun _ fl =>
        if fl.direction = "in" then
          match mapLookup parameters fl.parameter with
          | some info =>
            if info.producers.isEmpty &&
                !is_pre_protocol_parameter fl.parameter then
              .error (.enactUnproduced i.action fl.parameter)
            else pure ()
          | none => pure ()
        else pure ()) ()) ()

/-- The collection phase of `validate_protocol_parameter_flow`: protocol
name, declared parameters, interactions and the populated parameter-info
table. -/
def collectProtocol (protocol_node : AstNode) :
    Except VError (String × List String × List InteractionInfo × PMap) := do
  let protocol_name ← extract_protocol_name protocol_node
  let st ← protocol_node.children.foldlM (fun st c =>
    if c.nodeType = .ParametersSection then extract_parameters c st
    else pure st) (([] : List String), ([] : PMap))
  let r ←
    protocol_node.children.foldlM (fun (st2 : List InteractionInfo × PMap) c =>
      if c.nodeType = .InteractionSection then
        extract_interactions c st.1 st2 protocol_name
      else pure st2) ([], st.2)
  pure (protocol_name, st.1, r.1, r.2)

/-- `validate_protocol_parameter_flow`: collection then the five passes in
source order. -/
def validate_protocol_parameter_flow (protocol_node : AstNode) :
    Except VError Unit := do
  let r ← collectProtocol protocol_node
  let protocol_name := r.1
  let interactions := r.2.2.1
  let parameter_info := r.2.2.2
  validate_unreachable_interactions parameter_info interactions protocol_name
  validate_flow_consistency parameter_info interactions protocol_name
  validate_causality parameter_info interactions protocol_name
  validate_completeness parameter_info protocol_name
  validate_enactability interactions parameter_info protocol_name

/-- `validate_parameter_flow`: run the per-protocol analysis over every
top-level `Protocol` of a `Program`. -/
def validate_parameter_flow (ast : AstNode) : Except VError Unit :=
  if ast.nodeType ≠ .Program then .error .expectedProgram
  else
    ast.children.foldlM (fun _ c =>
      if c.nodeType = .Protocol then validate_protocol_parameter_flow c
      else pure ()) ()

/-- The referenced protocol name of a `ProtocolComposition` node: the last
named `Identifier` under its `ProtocolReference` children (the Rust loops
overwrite). -/
def referencedProtocolName (composition_node : AstNode) : Option String :=
  composition_node.children.foldl (fun acc c =>
    if c.nodeType = .ProtocolReference then
      c.children.foldl (fun acc2 rc =>
        if rc.nodeType = .Identifier then
          match rc.getString "name" with
          | some nm => some nm
          | none => acc2
        else acc2) acc
    else acc) none

/-- `validate_single_composition`: unknown-reference check first, then the
direct-recursion check.  The registry is consulted only for key membership,
so it is passed as its name list. -/
def validate_single_composition (composition_node : AstNode)
    (registry : List String) (parent_protocol_name : String) :
    Except VError Unit :=
  match referencedProtocolName composition_node with
  | some ref_name =>
    if ref_name ∉ registry then
      .error (.unknownProtocolRef parent_protocol_name ref_name)
    else if ref_name = parent_protocol_name then
      .error (.directRecursion parent_protocol_name)
    else .ok ()
  | none => .error (.noProtocolRef parent_protocol_name)

/-- The key set of the registry built by `validate_protocol_composition`
(and by `ProtocolRegistry::from_program`): one entry per top-level
`Protocol`, duplicates silently overwriting. -/
def buildRegistryNames (ast : AstNode) : Except VError (List String) :=
  ast.children.foldlM (fun reg c =>
    if c.nodeType = .Protocol then do
      let n ← extract_protocol_name c
      pure (insertSet reg n)
    else pure reg) []

/-- `ProtocolRegistry::from_program` from `src/transpiler/composition.rs`:
build the name ↦ protocol-node map, later entries overwriting earlier
ones. -/
def registry_from_program (program : AstNode) :
    Except VError (List (String × AstNode)) :=
  if program.nodeType ≠ .Program then .error .expectedProgram
  else
    program.children.foldlM (fun reg c =>
      if c.nodeType = .Protocol then do
        let n ← extract_protocol_name c
        pure (mapInsert reg n c)
      else pure reg) []

/-- `validate_composition_references`: check every composition of one
protocol against the registry. -/
def validate_composition_references (protocol_node : AstNode)
    (registry : List String) : Except VError Unit := do
  let protocol_name ← extract_protocol_name protocol_node
  protocol_node.children.foldlM (fun _ c =>
    if c.nodeType = .InteractionSection then
      c.children.foldlM (fun _ item =>
        if item.nodeType = .InteractionItem then
          item.children.foldlM (fun _ ic =>
            if ic.nodeType = .ProtocolComposition then
              validate_single_composition ic registry protocol_name
            else pure ()) ()
        else pure ()) ()
    else pure ()) ()

/-- `validate_protocol_composition` from `validation/mod.rs`: build the
registry over all top-level protocols, then check each protocol's
compositions. -/
def validate_protocol_composition (ast : AstNode) : Except VError Unit :=
  if ast.nodeType ≠ .Program then .error .expectedProgram
  else do
    let reg ← buildRegistryNames ast
    ast.children.foldlM (fun _ c =>
      if c.nodeType = .Protocol then validate_composition_references c reg
      else pure ()) ()

/-! ### The PEG parser (`src/transpiler/parser/mod.rs`)

The embedded `peg` grammar is modelled with possessive (PEG-semantics)
combinators over a character list: ordered choice, greedy repetition with
no backtracking into repetition counts.  Looping combinators take fuel;
every loop iteration consumes at least one character, so the fuel passed
from `parse_source` (input length + 1) can never run out. -/

/-- A parsing function: input ↦ (value, remaining input) on success. -/
abbrev Parse (α : Type) : Type := List Char → Option (α × List Char)

instance : Monad Parse where
  pure a := fun input => some (a, input)
  bind p f := fun input =>
    match p input with
    | some (a, r) => f a r
    | none => none

/-- Ordered choice (PEG `/`): try the first alternative, fall back to the
second from the same position. -/
def pOr {α : Type} (p q : Parse α) : Parse α := fun input =>
  match p input with
  | some r => some r
  | none => q input

/-- Match a literal character sequence. -/
def pLit : List Char → Parse Unit
  | [], input => some ((), input)
  | _ :: _, [] => none
  | c :: cs, d :: rest => if d = c then pLit cs rest else none

def pStr (s : String) : Parse Unit := pLit s.data

def wsChar (c : Char) : Bool :=
  c = ' ' || c = '\t' || c = '\n' || c = '\r'

/-- Consume comment body up to (not including) the line break. -/
def pCommentBody : List Char → List Char
  | [] => []
  | c :: rest => if c = '\n' || c = '\r' then c :: rest else pCommentBody rest

/-- The `comment()` rule: `"//"`, anything to end of line, optional line
break. -/
def pComment : Parse Unit := fun input =>
  match pLit ['/', '/'] input with
  | some (_, rest) =>
    match pCommentBody rest with
    | c :: rest2 =>
      if c = '\n' || c = '\r' then some ((), rest2)
      else some ((), c :: rest2)
    | [] => some ((), [])
  | none => none

/-- The `ws()` rule: zero or more comments or whitespace characters.  Never
fails.  Each iteration consumes at least one character, so fuel exceeding
the input length never runs out. -/
def pWs : Nat → Parse Unit
  | 0 => fun input => some ((), input)
  | fuel + 1 => fun input =>
    match pComment input with
    | some (_, rest) => pWs fuel rest
    | none =>
      match input with
      | c :: rest => if wsChar c then pWs fuel rest else some ((), input)
      | [] => some ((), [])

def isAsciiAlpha (c : Char) : Bool :=
  ('a' ≤ c && c ≤ 'z') || ('A' ≤ c && c ≤ 'Z')

def isIdentChar (c : Char) : Bool :=
  isAsciiAlpha c || ('0' ≤ c && c ≤ '9') || c = '_'

/-- Greedy tail of an identifier. -/
def pIdentRest : List Char → List Char × List Char
  | [] => ([], [])
  | c :: rest =>
    if isIdentChar c then
      let (xs, r) := pIdentRest rest
      (c :: xs, r)
    else ([], c :: rest)

/-- The `identifier()` rule: a letter followed by letters, digits or
underscores, matched greedily. -/
def pIdent : Parse String := fun input =>
  match input with
  | c :: rest =>
    if isAsciiAlpha c then
      let (xs, r) := pIdentRest rest
      some (String.mk (c :: xs), r)
    else none
  | [] => none

/-- Greedy body of a string literal (any characters except the quote). -/
def pStrBody : List Char → List Char × List Char
  | [] => ([], [])
  | c :: rest =>
    if c = '"' then ([], c :: rest)
    else
      let (xs, r) := pStrBody rest
      (c :: xs, r)

/-- The `string_literal()` rule. -/
def pStringLit : Parse String := fun input =>
  match input with
  | c :: rest =>
    if c = '"' then
      match pStrBody rest with
      | (xs, q :: r2) => if q = '"' then some (String.mk xs, r2) else none
      | (_, []) => none
    else none
  | [] => none

/-- The `basic_type()` rule: ordered literal alternatives, capturing the
matched text. -/
def pBasicType : Parse String :=
  pOr (do pStr "String"; pure "String")
    (pOr (do pStr "Int"; pure "Int")
      (pOr (do pStr "Float"; pure "Float")
        (do pStr "Bool"; pure "Bool")))

/-- The `direction()` rule: `"in"` / `"out"` literal alternatives. -/
def pDirection : Parse String :=
  pOr (do pStr "in"; pure "in") (do pStr "out"; pure "out")

/-- The `annotation()` rule: `"(" ws string_literal ws ")"`. -/
def pAnnot (fuel : Nat) : Parse AstNode := do
  pStr "("
  pWs fuel
  let s ← pStringLit
  pWs fuel
  pStr ")"
  pure (.node .Annot [] [("description", s)])

/-- Continuation of `item ** sep` (PEG semantics): collect while `sep item`
matches; a failed attempt backtracks to before the separator. -/
def pSepMore {α : Type} (item : Parse α) (sep : Parse Unit) :
    Nat → List α → Parse (List α)
  | 0, acc, input => some (acc.reverse, input)
  | fuel + 1, acc, input =>
    match sep input with
    | some (_, r1) =>
      match item r1 with
      | some (x, r2) => pSepMore item sep fuel (x :: acc) r2
      | none => some (acc.reverse, input)
    | none => some (acc.reverse, input)

/-- The `item ** sep` repetition (zero or more, separated). -/
def pSepList0 {α : Type} (item : Parse α) (sep : Parse Unit) (fuel : Nat) :
    Parse (List α) := fun input =>
  match item input with
  | none => some ([], input)
  | some (x, r) => pSepMore item sep fuel [x] r

/-- The `item ++ sep` repetition (one or more, separated). -/
def pSepList1 {α : Type} (item : Parse α) (sep : Parse Unit) (fuel : Nat) :
    Parse (List α) := fun input =>
  match item input with
  | none => none
  | some (x, r) => pSepMore item sep fuel [x] r

/-- The `ws "," ws` separator used by the section lists. -/
def pCommaSep (fuel : Nat) : Parse Unit := do
  pWs fuel
  pStr ","
  pWs fuel

/-- The `role_decl()` rule: `identifier ws "<Agent>" ws annotation`. -/
def pRoleDecl (fuel : Nat) : Parse AstNode := do
  let name ← pIdent
  pWs fuel
  pStr "<Agent>"
  pWs fuel
  let ann ← pAnnot fuel
  pure (.node .RoleDecl [.node .Identifier [] [("name", name)], ann] [])

/-- The `roles_section()` rule: `"roles" ws (role_decl ** (ws "," ws))` —
note the zero-or-more repetition. -/
def pRolesSection (fuel : Nat) : Parse AstNode := do
  pStr "roles"
  pWs fuel
  let roles ← pSepList0 (pRoleDecl fuel) (pCommaSep fuel) fuel
  pure (.node .RolesSection roles [])

/-- The `parameter_decl()` rule: `identifier ws "<" ws basic_type ws ">" ws
annotation`. -/
def pParameterDecl (fuel : Nat) : Parse AstNode := do
  let name ← pIdent
  pWs fuel
  pStr "<"
  pWs fuel
  let ty ← pBasicType
  pWs fuel
  pStr ">"
  pWs fuel
  let ann ← pAnnot fuel
  pure (.node .ParameterDecl
    [.node .Identifier [] [("name", name)],
     .node .BasicType [] [("type", ty)], ann] [])

/-- The `parameters_section()` rule: `"parameters" ws (parameter_decl **
(ws "," ws))` — again zero-or-more. -/
def pParametersSection (fuel : Nat) : Parse AstNode := do
  pStr "parameters"
  pWs fuel
  let params ← pSepList0 (pParameterDecl fuel) (pCommaSep fuel) fuel
  pure (.node .ParametersSection params [])

/-- The `parameter_flow()` rule: `direction ws identifier`. -/
def pParameterFlow (fuel : Nat) : Parse AstNode := do
  let dir ← pDirection
  pWs fuel
  let name ← pIdent
  pure (.node .ParameterFlow [.node .Identifier [] [("name", name)]]
    [("direction", dir)])

/-- The `parameter_flow_list()` rule: `"[" ws (parameter_flow ** (ws ","
ws))? ws "]"`. -/
def pParameterFlowList (fuel : Nat) : Parse (List AstNode) := do
  pStr "["
  pWs fuel
  let flows ← pSepList0 (pParameterFlow fuel) (pCommaSep fuel) fuel
  pWs fuel
  pStr "]"
  pure flows

/-- The `standard_interaction()` rule. -/
def pStandardInteraction (fuel : Nat) : Parse AstNode := do
  let fromName ← pIdent
  pWs fuel
  pStr "->"
  pWs fuel
  let toName ← pIdent
  pWs fuel
  pStr ":"
  pWs fuel
  let actName ← pIdent
  pWs fuel
  pStr "<Action>"
  pWs fuel
  let ann ← pAnnot fuel
  pWs fuel
  let flows ← pParameterFlowList fuel
  pure (.node .StandardInteraction
    ([.node .RoleRef [] [("name", fromName)],
      .node .RoleRef [] [("name", toName)],
      .node .ActionName [] [("name", actName)], ann] ++ flows) [])

/-- The `protocol_reference()` rule: `identifier ws "<Enactment>"`. -/
def pProtocolReference (fuel : Nat) : Parse AstNode := do
  let name ← pIdent
  pWs fuel
  pStr "<Enactment>"
  pure (.node .ProtocolReference [.node .Identifier [] [("name", name)]] [])

/-- The `composition_parameter()` rule: a parameter flow, or a bare
identifier (ordered choice). -/
def pCompositionParameter (fuel : Nat) : Parse AstNode :=
  pOr (pParameterFlow fuel)
    (do
      let name ← pIdent
      pure (.node .Identifier [] [("name", name)]))

/-- The `protocol_composition()` rule: `protocol_reference ws "[" ws
(composition_parameter ** (ws "," ws))? ws "]"`. -/
def pProtocolComposition (fuel : Nat) : Parse AstNode := do
  let pref ← pProtocolReference fuel
  pWs fuel
  pStr "["
  pWs fuel
  let params ← pSepList0 (pCompositionParameter fuel) (pCommaSep fuel) fuel
  pWs fuel
  pStr "]"
  pure (.node .ProtocolComposition (pref :: params) [])

/-- The `interaction_item()` rule: standard interaction / protocol
composition (ordered choice), wrapped in an `InteractionItem` node. -/
def pInteractionItem (fuel : Nat) : Parse AstNode := do
  let item ← pOr (pStandardInteraction fuel) (pProtocolComposition fuel)
  pure (.node .InteractionItem [item] [])

/-- The `interactions_section()` rule: `interaction_item ++ ws`. -/
def pInteractionsSection (fuel : Nat) : Parse AstNode := do
  let items ← pSepList1 (pInteractionItem fuel) (pWs fuel) fuel
  pure (.node .InteractionSection items [])

/-- The `protocol()` rule. -/
def pProtocol (fuel : Nat) : Parse AstNode := do
  let name ← pIdent
  pWs fuel
  pStr "<Protocol>"
  pWs fuel
  let ann ← pAnnot fuel
  pWs fuel
  pStr "\x7b"
  pWs fuel
  let roles ← pRolesSection fuel
  pWs fuel
  let params ← pParametersSection fuel
  pWs fuel
  let inters ← pInteractionsSection fuel
  pWs fuel
  pStr "\x7d"
  pure (.node .Protocol
    [.node .ProtocolName [] [("name", name)], ann, roles, params, inters] [])

/-- The `program()` rule: `ws (protocol ++ ws) ws`. -/
def pProgram (fuel : Nat) : Parse AstNode := do
  pWs fuel
  let protocols ← pSepList1 (pProtocol fuel) (pWs fuel) fuel
  pWs fuel
  pure (.node .Program protocols [])

/-- `parse_source`: the `peg`-generated entry point succeeds only when the
whole input is consumed. -/
def parse_source (source : String) : Option AstNode :=
  match pProgram (source.length + 1) source.data with
  | some (ast, []) => some ast
  | _ => none

/-! ### Concrete protocols used as test inputs

Builder shorthands for `AstNode` values of the shape the parser produces
(annotations, which validation ignores, are left out of the built
children where the claims do not need them; `get_string` lookups are
unaffected). -/

/-- An `Identifier` node carrying a name. -/
def idN (s : String) : AstNode := .node .Identifier [] [("name", s)]

/-- A `ParameterFlow` node. -/
def flowN (d p : String) : AstNode :=
  .node .ParameterFlow [idN p] [("direction", d)]

/-- A `RoleDecl` node. -/
def roleDeclN (nm : String) : AstNode := .node .RoleDecl [idN nm] []

/-- A `ParameterDecl` node. -/
def paramDeclN (nm ty : String) : AstNode :=
  .node .ParameterDecl [idN nm, .node .BasicType [] [("type", ty)]] []

/-- An `InteractionItem` wrapping a `StandardInteraction`. -/
def interN (f t a : String) (flows : List (String × String)) : AstNode :=
  .node .InteractionItem
    [.node .StandardInteraction
      ([.node .RoleRef [] [("name", f)], .node .RoleRef [] [("name", t)],
        .node .ActionName [] [("name", a)]] ++
        flows.map (fun fp => flowN fp.1 fp.2)) []] []

/-- An `InteractionItem` wrapping a `ProtocolComposition` that references
`ref` and binds `roles` and `flows` at the site. -/
def compN (ref : String) (roles : List String)
    (flows : List (String × String)) : AstNode :=
  .node .InteractionItem
    [.node .ProtocolComposition
      (.node .ProtocolReference [idN ref] [] ::
        (roles.map idN ++ flows.map (fun fp => flowN fp.1 fp.2))) []] []

/-- A `Protocol` node with the standard section layout. -/
def protoN (nm : String) (roles : List String)
    (params : List (String × String)) (inters : List AstNode) : AstNode :=
  .node .Protocol
    [.node .ProtocolName [] [("name", nm)],
     .node .RolesSection (roles.map roleDeclN) [],
     .node .ParametersSection (params.map (fun p => paramDeclN p.1 p.2)) [],
     .node .InteractionSection inters []] []

/-- Two producers of `p` from role `A` plus an unrelated interaction that
reuses the action name `a1` from role `D`: all interactions *producing* `p`
come from `A`, but the name-keyed producer filter also catches the `D`
interaction. -/
def c1ex : AstNode :=
  protoN "P" ["A", "B", "C", "D", "E"] [("p", "String")]
    [interN "A" "B" "a1" [("out", "p")],
     interN "A" "C" "a2" [("out", "p")],
     interN "D" "E" "a1" []]

/-- The collection-phase result for `c1ex`. -/
def c1collect := collectProtocol c1ex

/-- The interaction list collected from `c1ex`. -/
def c1inters : List InteractionInfo :=
  match c1collect with
  | .ok r => r.2.2.1
  | .error _ => []

/-- The parameter table collected from `c1ex`. -/
def c1pinfo : PMap :=
  match c1collect with
  | .ok r => r.2.2.2
  | .error _ => []

/-- Two interactions sharing the action name `act`: the precedence graph has
the single node `act` and no edges, every node is emitted, yet the length
comparison against the interaction list fails. -/
def c2ex : AstNode :=
  protoN "P2" ["X", "Y", "Z"] [("p", "String")]
    [interN "X" "Y" "act" [("out", "p")],
     interN "X" "Z" "act" [("in", "p")]]

/-- The collection-phase result for `c2ex`. -/
def c2collect := collectProtocol c2ex

/-- The interaction list collected from `c2ex`. -/
def c2inters : List InteractionInfo :=
  match c2collect with
  | .ok r => r.2.2.1
  | .error _ => []

/-- The parameter table collected from `c2ex`. -/
def c2pinfo : PMap :=
  match c2collect with
  | .ok r => r.2.2.2
  | .error _ => []

/-- The precedence graph built for `c2ex`. -/
def c2graph : Graph := buildPrecedence c2pinfo c2inters

/-- Two parameters, each produced by two interactions with different
`from_role`s: both violate the safety pass, and which one is reported
depends on the enumeration order of the parameter table. -/
def c4ex : AstNode :=
  protoN "P4" ["A", "B", "C", "D", "E"] [("x", "String"), ("y", "String")]
    [interN "A" "B" "a1" [("out", "x")],
     interN "C" "B" "a2" [("out", "x")],
     interN "D" "E" "b1" [("out", "y")],
     interN "B" "E" "b2" [("out", "y")]]

/-- The collection-phase result for `c4ex`. -/
def c4collect := collectProtocol c4ex

/-- The interaction list collected from `c4ex`. -/
def c4inters : List InteractionInfo :=
  match c4collect with
  | .ok r => r.2.2.1
  | .error _ => []

/-- The parameter table collected from `c4ex` (canonical declaration
order). -/
def c4pinfo : PMap :=
  match c4collect with
  | .ok r => r.2.2.2
  | .error _ => []

/-- A minimal well-formed protocol named `nm` with no parameters used. -/
def tinyProto (nm : String) : AstNode :=
  protoN nm ["A", "B"] [("p", "String")] [interN "A" "B" "act" [("out", "p")]]

/-- A program with two top-level protocols that share the name `Dup`. -/
def c5ex : AstNode :=
  .node .Program [tinyProto "Dup", tinyProto "Dup"] []

/-- A source whose `roles` and `parameters` sections contain zero
declarations. -/
def c6src : String :=
  "P <Protocol>(\"d\")\x7broles parameters A -> B: act <Action>(\"x\")[]\x7d"

/-- The AST that `parse_source` yields for `c6src`: both the roles section
and the parameters section are empty. -/
def c6ast : AstNode :=
  .node .Program
    [.node .Protocol
      [.node .ProtocolName [] [("name", "P")],
       .node .Annot [] [("description", "d")],
       .node .RolesSection [] [],
       .node .ParametersSection [] [],
       .node .InteractionSection
         [.node .InteractionItem
           [.node .StandardInteraction
             [.node .RoleRef [] [("name", "A")],
              .node .RoleRef [] [("name", "B")],
              .node .ActionName [] [("name", "act")],
              .node .Annot [] [("description", "x")]] []] []] []] []] []

/-- A protocol declaring the parameter `p` twice, with different types. -/
def c7ex : AstNode :=
  protoN "P7" ["A", "B"] [("p", "Int"), ("p", "String")]
    [interN "A" "B" "act" [("out", "p")]]

/-- A protocol declaring only role `M` whose interaction names the
undeclared roles `B` and `C`. -/
def c8ex : AstNode :=
  protoN "P8" ["M"] [("p", "Int")] [interN "B" "C" "act" [("out", "p")]]

/-- A composition node referencing `Chi` and binding two roles and one
flow. -/
def c9compNode : AstNode :=
  .node .ProtocolComposition
    [.node .ProtocolReference [idN "Chi"] [], idN "A", idN "B",
     flowN "out" "p"] []

/-- The interaction item wrapping `c9compNode`. -/
def c9item : AstNode := .node .InteractionItem [c9compNode] []

/-- The interaction section of the composing protocol. -/
def c9isec : AstNode := .node .InteractionSection [c9item] []

/-- The protocol `Par`, which composes `Chi`. -/
def c9parent : AstNode :=
  .node .Protocol
    [.node .ProtocolName [] [("name", "Par")],
     .node .RolesSection [roleDeclN "A", roleDeclN "B"] [],
     .node .ParametersSection [paramDeclN "p" "String"] [],
     c9isec] []

/-- A program where `Par` composes the registered sibling `Chi`. -/
def c9exOk : AstNode :=
  .node .Program [c9parent, tinyProto "Chi"] []

/-- A protocol consuming a parameter that is never produced. -/
def c3wEx : AstNode :=
  protoN "PW3" ["A", "B"] [("orphan", "String")]
    [interN "A" "B" "act" [("in", "orphan")]]

/-- A protocol whose interaction node carries no role references at all, so
extraction leaves both placeholders at `Unknown`. -/
def c8wEx : AstNode :=
  protoN "PW8" ["A"] [("p", "Int")]
    [.node .InteractionItem
      [.node .StandardInteraction
        [.node .ActionName [] [("name", "act")]] []] []]

/-- A circular protocol with distinct action names (the repository's own
circular-dependency test). -/
def c2wEx : AstNode :=
  protoN "BadProtocol" ["A", "B"] [("param1", "String"), ("param2", "String")]
    [interN "A" "B" "action1" [("in", "param2"), ("out", "param1")],
     interN "B" "A" "action2" [("in", "param1"), ("out", "param2")]]

/-- The collection-phase result for `c2wEx`. -/
def c2wCollect := collectProtocol c2wEx

/-- The declared-parameter list collected from `c2wEx`. -/
def c2wD : List String :=
  match c2wCollect with
  | .ok r => r.2.1
  | .error _ => []

/-- The interaction list collected from `c2wEx`. -/
def c2wInters : List InteractionInfo :=
  match c2wCollect with
  | .ok r => r.2.2.1
  | .error _ => []

/-- The parameter table collected from `c2wEx`. -/
def c2wPinfo : PMap :=
  match c2wCollect with
  | .ok r => r.2.2.2
  | .error _ => []

/-- The parallel-branch exception as the specification words it, attached
to the edge carried by one specific parameter: the producer and consumer
interactions share a `from_role`, target different `to_role`s, and that
parameter has multiple producers, all originating from that shared
`from_role`.  This definition follows the spec's words, for comparison
with the source's `is_parallel_branch_relationship`. -/
def spec_parallel_branch (a b : String) (info : ParameterInfo)
    (inters : List InteractionInfo) : Bool :=
  match inters.find? (fun i => i.action = a),
      inters.find? (fun i => i.action = b) with
  | some ia, some ib =>
    ia.from_role = ib.from_role && ia.to_role ≠ ib.to_role &&
    info.producers.length > 1 &&
    inters.all (fun i =>
      !(i.action ∈ info.producers) || i.from_role = ia.from_role)
  | _, _ => false

/-- The precedence edges as the specification words them: one edge
producer → consumer for every pair (producer of p, consumer of p) with
distinct endpoints, unless that parameter's own parallel-branch exception
applies. -/
def spec_precedence_edges (parameters : PMap)
    (inters : List InteractionInfo) : List (String × String) :=
  parameters.flatMap (fun kv =>
    kv.2.producers.flatMap (fun a =>
      kv.2.consumers.filterMap (fun b =>
        if a ≠ b && !spec_parallel_branch a b kv.2 inters then
          some (a, b)
        else none)))

/-- The precedence graph as the specification words it: a node per
interaction name and the spec's edges. -/
def spec_precedence (parameters : PMap)
    (inters : List InteractionInfo) : Graph :=
  (spec_precedence_edges parameters inters).foldl
    (fun g e => graphPush g e.1 e.2) (graphInit inters)

/-- A duplicate-free protocol on which the code's any-shared-parameter
parallel-branch test and the spec's per-edge-parameter test disagree:
`p` (single producer `a`, consumed by `b`) induces the spec edge `a → b`,
but the code drops it because `a` and `b` also share the broadcast
parameter `q` (produced by `a` and `c` from the same role `A`); `r`
(produced by `b`, consumed by `a`) induces the edge `b → a` for both. -/
def divEx : AstNode :=
  protoN "DIV" ["A", "B", "C", "D"]
    [("p", "String"), ("q", "String"), ("r", "String")]
    [interN "A" "B" "a" [("out", "p"), ("out", "q"), ("in", "r")],
     interN "A" "C" "b" [("in", "p"), ("in", "q"), ("out", "r")],
     interN "A" "D" "c" [("out", "q")]]

/-- The collection-phase result for `divEx`. -/
def divCollect := collectProtocol divEx

/-- The interaction list collected from `divEx`. -/
def divInters : List InteractionInfo :=
  match divCollect with
  | .ok r => r.2.2.1
  | .error _ => []

/-- The parameter table collected from `divEx`. -/
def divPinfo : PMap :=
  match divCollect with
  | .ok r => r.2.2.2
  | .error _ => []

/-- A composition site that binds the single bare role identifier
`Unknown`. -/
def c10compNode : AstNode :=
  .node .ProtocolComposition
    [.node .ProtocolReference [idN "Chi"] [], idN "Unknown"] []

/-- A protocol whose only interaction is the composition binding the bare
identifier `Unknown`: the padded interaction is `Unknown → System` and the
enactability pass rejects it. -/
def c10ex : AstNode :=
  protoN "PA" ["A", "B"] [("p", "String")]
    [.node .InteractionItem [c10compNode] []]

/-- A composition site binding one bare role identifier `R`. -/
def c10okComp : AstNode :=
  .node .ProtocolComposition
    [.node .ProtocolReference [idN "Chi"] [], idN "R"] []

/-- A protocol whose only interaction is the composition binding `R`. -/
def c10okEx : AstNode :=
  protoN "PB" ["R", "B"] [("p", "String")]
    [.node .InteractionItem [c10okComp] []]

/-! ### Graph vocabulary used to state the causality theorems -/

/-- The node set of an adjacency list (its keys, in order). -/
def keysOf {β : Type} (m : List (String × β)) : List String := m.map (·.1)

/-- The adjacency list of a node (`HashMap::get`, defaulting to empty). -/
def lookupAdj (g : Graph) (u : String) : List String :=
  (mapLookup g u).getD []

/-- The edge list of a graph, with multiplicity. -/
def edgesOf (g : Graph) : List (String × String) :=
  g.flatMap (fun kv => kv.2.map (fun v => (kv.1, v)))

/-- Number of edges into `n` whose source is outside `s` (the quantity
Kahn's in-degree table tracks as nodes are emitted). -/
def inCount (g : Graph) (n : String) (s : List String) : Nat :=
  (edgesOf g).countP (fun e => decide (e.2 = n ∧ e.1 ∉ s))

/-- Consecutive elements of the list are edges of `g`. -/
def isChain (g : Graph) : List String → Prop
  | [] => True
  | [_] => True
  | a :: b :: rest => b ∈ lookupAdj g a ∧ isChain g (b :: rest)

/-- A cycle: a chain of length at least two whose first and last elements
coincide. -/
def isCycleList (g : Graph) (c : List String) : Prop :=
  2 ≤ c.length ∧ c.head? = c.getLast? ∧ isChain g c

/-- `ProtocolRegistry::extract_protocol_roles` from
`src/transpiler/composition.rs`: the declared role names of a protocol
(first named `Identifier` of each `RoleDecl`). -/
def extract_protocol_roles (protocol : AstNode) : List String :=
  protocol.children.foldl (fun acc c =>
    if c.nodeType = .RolesSection then
      c.children.foldl (fun acc2 rc =>
        if rc.nodeType = .RoleDecl then
          match rc.children.findSome? (fun gc =>
              if gc.nodeType = .Identifier then gc.getString "name" else none)
            with
          | some nm => acc2 ++ [nm]
          | none => acc2
        else acc2) acc
    else acc) []

/-- Producers recorded in a parameter table all come from the given action
list. -/
def producersFrom (m : PMap) (acts : List String) : Prop :=
  ∀ kv ∈ m, ∀ a ∈ kv.2.producers, a ∈ acts

/-- A flow that makes its interaction unreachable (and, equally, blocks
enactability): an `in` flow on a recorded parameter with no producers that
is not pre-protocol knowledge. -/
def unreachableFlow (parameters : PMap) (fl : ParameterFlow) : Prop :=
  fl.direction = "in" ∧
    ∃ info, mapLookup parameters fl.parameter = some info ∧
      info.producers = [] ∧ is_pre_protocol_parameter fl.parameter = false

/-- The safety violation reported by the flow-consistency pass, phrased
over the interaction list: more than one recorded producer name, and it is
not the case that the interactions carrying a producing name all share one
`from_role`. -/
def multiProducerViol (interactions : List InteractionInfo)
    (kv : String × ParameterInfo) : Prop :=
  1 < kv.2.producers.length ∧
    ¬∃ i ∈ interactions, i.action ∈ kv.2.producers ∧
      ∀ j ∈ interactions, j.action ∈ kv.2.producers →
        j.from_role = i.from_role

/-! ## Theorems -/

/-! ### Association-list lemmas -/

theorem mapLookup_insert_self {β : Type} (m : List (String × β)) (k : String)
    (v : β) : mapLookup (mapInsert m k v) k = some v := by
  induction m with
  | nil => simp [mapInsert, mapLookup]
  | cons kv rest ih =>
    by_cases h : kv.1 = k
    · simp [mapInsert, h, mapLookup]
    · simp [mapInsert, h, mapLookup, ih]

theorem mapLookup_insert_ne {β : Type} (m : List (String × β)) (k k' : String)
    (v : β) (h : k' ≠ k) :
    mapLookup (mapInsert m k v) k' = mapLookup m k' := by
  induction m with
  | nil => simp [mapInsert, mapLookup, Ne.symm h]
  | cons kv rest ih =>
    obtain ⟨a, b⟩ := kv
    by_cases hk : a = k
    · subst hk
      simp [mapInsert, mapLookup, Ne.symm h]
    · simp [mapInsert, mapLookup, hk, ih]

theorem keysOf_insert {β : Type} (m : List (String × β)) (k : String)
    (v : β) :
    keysOf (mapInsert m k v) =
      if k ∈ keysOf m then keysOf m else keysOf m ++ [k] := by
  induction m with
  | nil => simp [mapInsert, keysOf]
  | cons kv rest ih =>
    by_cases h : kv.1 = k
    · simp [mapInsert, h, keysOf]
    · simp only [mapInsert, if_neg h, keysOf, List.map_cons, List.mem_cons]
      rw [show keysOf (mapInsert rest k v) =
        (mapInsert rest k v).map (·.1) from rfl] at ih
      rw [show keysOf rest = rest.map (·.1) from rfl] at ih
      by_cases hm : k ∈ rest.map (·.1)
      · simp [hm, ih, Ne.symm h]
      · simp [hm, ih, Ne.symm h]

theorem keysOf_insert_mem {β : Type} (m : List (String × β)) (k : String)
    (v : β) (h : k ∈ keysOf m) : keysOf (mapInsert m k v) = keysOf m := by
  rw [keysOf_insert, if_pos h]

theorem keysOf_insert_nodup {β : Type} (m : List (String × β)) (k : String)
    (v : β) (h : (keysOf m).Nodup) : (keysOf (mapInsert m k v)).Nodup := by
  rw [keysOf_insert]
  by_cases hm : k ∈ keysOf m
  · simpa [hm]
  · simp only [if_neg hm]
    simpa [List.nodup_append, hm] using h

theorem mapLookup_eq_none {β : Type} (m : List (String × β)) (k : String)
    (h : k ∉ keysOf m) : mapLookup m k = none := by
  induction m with
  | nil => rfl
  | cons kv rest ih =>
    simp only [keysOf, List.map_cons, List.mem_cons, not_or] at h
    simp [mapLookup, Ne.symm h.1, ih (by simpa [keysOf] using h.2)]

theorem mem_keysOf_of_lookup {β : Type} (m : List (String × β)) (k : String)
    (v : β) (h : mapLookup m k = some v) : k ∈ keysOf m := by
  by_contra hk
  rw [mapLookup_eq_none m k hk] at h
  exact Option.noConfusion h

theorem lookup_mem {β : Type} (m : List (String × β)) (k : String) (v : β)
    (h : mapLookup m k = some v) : (k, v) ∈ m := by
  induction m with
  | nil => exact absurd h (by simp [mapLookup])
  | cons kv rest ih =>
    obtain ⟨a, b⟩ := kv
    by_cases hk : a = k
    · subst hk
      simp only [mapLookup, if_pos rfl] at h
      obtain rfl := Option.some.inj h
      exact List.mem_cons_self _ _
    · simp only [mapLookup, if_neg hk] at h
      exact List.mem_cons_of_mem _ (ih h)

/-! ### Characterizations of the unit-state error folds -/

theorem foldlM_unit_cases {α : Type} (f : α → Except VError Unit)
    (l : List α) :
    (l.foldlM (fun _ x => f x) () = .ok ()) ∨
      ∃ e, l.foldlM (fun _ x => f x) () = .error e := by
  cases h : l.foldlM (fun _ x => f x) () with
  | ok u => cases u; exact .inl rfl
  | error e => exact .inr ⟨e, rfl⟩

theorem foldlM_unit_ok {α : Type} (f : α → Except VError Unit) (l : List α) :
    (l.foldlM (fun _ x => f x) () = .ok ()) ↔ ∀ x ∈ l, f x = .ok () := by
  induction l with
  | nil => simp [List.foldlM, pure, Except.pure]
  | cons a l ih =>
    rw [List.foldlM_cons]
    cases h : f a with
    | ok u =>
      cases u
      have : (Except.ok () : Except VError Unit) >>= (fun b' =>
          List.foldlM (fun _ x => f x) b' l) =
          List.foldlM (fun _ x => f x) () l := rfl
      rw [this, ih]
      constructor
      · intro hall x hx
        rcases List.mem_cons.mp hx with rfl | hx
        · exact h
        · exact hall x hx
      · intro hall x hx
        exact hall x (List.mem_cons_of_mem _ hx)
    | error e =>
      have : (Except.error e : Except VError Unit) >>= (fun b' =>
          List.foldlM (fun _ x => f x) b' l) = Except.error e := rfl
      rw [this]
      constructor
      · intro hfalse
        exact absurd hfalse (by simp)
      · intro hall
        have := hall a (List.mem_cons_self a l)
        rw [h] at this
        exact absurd this (by simp)

theorem foldlM_unit_error {α : Type} (f : α → Except VError Unit)
    (l : List α) (e : VError)
    (h : l.foldlM (fun _ x => f x) () = .error e) :
    ∃ x ∈ l, f x = .error e := by
  induction l with
  | nil => exact absurd h (by simp [List.foldlM, pure, Except.pure])
  | cons a l ih =>
    rw [List.foldlM_cons] at h
    cases ha : f a with
    | ok u =>
      cases u
      rw [ha] at h
      have h' : List.foldlM (fun _ x => f x) () l = .error e := h
      obtain ⟨x, hx, hfx⟩ := ih h'
      exact ⟨x, List.mem_cons_of_mem _ hx, hfx⟩
    | error e' =>
      rw [ha] at h
      have : e' = e := Except.error.inj h
      exact ⟨a, List.mem_cons_self a l, by rw [ha, this]⟩

theorem foldlM_unit_not_ok {α : Type} (f : α → Except VError Unit)
    (l : List α) (x : α) (hx : x ∈ l) (hfx : f x ≠ .ok ()) :
    ∃ e, l.foldlM (fun _ y => f y) () = .error e ∧ ∃ y ∈ l, f y = .error e := by
  rcases foldlM_unit_cases f l with hok | ⟨e, he⟩
  · exact absurd ((foldlM_unit_ok f l).mp hok x hx) hfx
  · exact ⟨e, he, foldlM_unit_error f l e he⟩

/-! ### Per-pass characterizations -/

theorem unreach_body_ok_iff (parameters : PMap) (fl : ParameterFlow)
    (e : VError) :
    ((if fl.direction = "in" then
        match mapLookup parameters fl.parameter with
        | some info =>
          if info.producers.isEmpty &&
              !is_pre_protocol_parameter fl.parameter
          then Except.error e else pure ()
        | none => pure ()
      else pure ()) = Except.ok ()) ↔ ¬unreachableFlow parameters fl := by
  by_cases hdir : fl.direction = "in"
  · rw [if_pos hdir]
    cases hl : mapLookup parameters fl.parameter with
    | some info =>
      by_cases hc : info.producers.isEmpty &&
          !is_pre_protocol_parameter fl.parameter
      · have hviol : unreachableFlow parameters fl := by
          simp only [Bool.and_eq_true, List.isEmpty_iff,
            Bool.not_eq_true'] at hc
          exact ⟨hdir, info, hl, hc.1, hc.2⟩
        simp [hc, hviol]
      · have hnviol : ¬unreachableFlow parameters fl := by
          simp only [Bool.and_eq_true, List.isEmpty_iff,
            Bool.not_eq_true'] at hc
          rintro ⟨-, info', hinfo', hprod, hpre⟩
          rw [hl] at hinfo'
          obtain rfl := Option.some.inj hinfo'
          exact hc ⟨hprod, hpre⟩
        simp [hc, hnviol, pure, Except.pure]
    | none =>
      have hnviol : ¬unreachableFlow parameters fl := by
        rintro ⟨-, info', hinfo', -, -⟩
        rw [hl] at hinfo'
        exact Option.noConfusion hinfo'
      simp [hnviol, pure, Except.pure]
  · rw [if_neg hdir]
    have hnviol : ¬unreachableFlow parameters fl := fun h => hdir h.1
    simp [hnviol, pure, Except.pure]

theorem unreach_body_error_iff (parameters : PMap) (fl : ParameterFlow)
    (e e' : VError) :
    ((if fl.direction = "in" then
        match mapLookup parameters fl.parameter with
        | some info =>
          if info.producers.isEmpty &&
              !is_pre_protocol_parameter fl.parameter
          then Except.error e else pure ()
        | none => pure ()
      else pure ()) = Except.error e') ↔
      unreachableFlow parameters fl ∧ e' = e := by
  by_cases hdir : fl.direction = "in"
  · rw [if_pos hdir]
    cases hl : mapLookup parameters fl.parameter with
    | some info =>
      by_cases hc : info.producers.isEmpty &&
          !is_pre_protocol_parameter fl.parameter
      · have hviol : unreachableFlow parameters fl := by
          simp only [Bool.and_eq_true, List.isEmpty_iff,
            Bool.not_eq_true'] at hc
          exact ⟨hdir, info, hl, hc.1, hc.2⟩
        simp only [hc, if_true]
        constructor
        · intro h
          exact ⟨hviol, (Except.error.inj h).symm⟩
        · rintro ⟨-, rfl⟩
          rfl
      · have hnviol : ¬unreachableFlow parameters fl := by
          simp only [Bool.and_eq_true, List.isEmpty_iff,
            Bool.not_eq_true'] at hc
          rintro ⟨-, info', hinfo', hprod, hpre⟩
          rw [hl] at hinfo'
          obtain rfl := Option.some.inj hinfo'
          exact hc ⟨hprod, hpre⟩
        simp [hc, hnviol, pure, Except.pure]
    | none =>
      have hnviol : ¬unreachableFlow parameters fl := by
        rintro ⟨-, info', hinfo', -, -⟩
        rw [hl] at hinfo'
        exact Option.noConfusion hinfo'
      simp [hnviol, pure, Except.pure]
  · rw [if_neg hdir]
    have hnviol : ¬unreachableFlow parameters fl := fun h => hdir h.1
    simp [hnviol, pure, Except.pure]

theorem validate_unreachable_ok_iff (parameters : PMap)
    (inters : List InteractionInfo) (pn : String) :
    validate_unreachable_interactions parameters inters pn = .ok () ↔
      ∀ i ∈ inters, ∀ fl ∈ i.parameter_flows,
        ¬unreachableFlow parameters fl := by
  unfold validate_unreachable_interactions
  rw [foldlM_unit_ok]
  refine forall_congr' fun i => imp_congr_right fun _ => ?_
  rw [foldlM_unit_ok]
  refine forall_congr' fun fl => imp_congr_right fun _ => ?_
  exact unreach_body_ok_iff parameters fl _

theorem validate_unreachable_error (parameters : PMap)
    (inters : List InteractionInfo) (pn : String) (e : VError)
    (h : validate_unreachable_interactions parameters inters pn = .error e) :
    ∃ i ∈ inters, ∃ fl ∈ i.parameter_flows,
      unreachableFlow parameters fl ∧
      e = .unreachable i.action fl.parameter pn := by
  unfold validate_unreachable_interactions at h
  obtain ⟨i, hi, hbody⟩ := foldlM_unit_error _ _ _ h
  obtain ⟨fl, hfl, hflbody⟩ := foldlM_unit_error _ _ _ hbody
  obtain ⟨hv, he⟩ := (unreach_body_error_iff parameters fl _ e).mp hflbody
  exact ⟨i, hi, fl, hfl, hv, he⟩

theorem flow_body_ok_iff (inters : List InteractionInfo) (pn : String)
    (kv : String × ParameterInfo) :
    ((if kv.2.producers.length > 1 &&
        !is_valid_parallel_production kv.1 kv.2.producers inters then
      Except.error (VError.multipleProducers kv.1 kv.2.producers pn)
    else pure ()) = Except.ok ()) ↔
      ¬(kv.2.producers.length > 1 ∧
        is_valid_parallel_production kv.1 kv.2.producers inters = false) := by
  by_cases hc : kv.2.producers.length > 1 &&
      !is_valid_parallel_production kv.1 kv.2.producers inters
  · rw [if_pos hc]
    simp only [Bool.and_eq_true, decide_eq_true_eq,
      Bool.not_eq_true'] at hc
    simp [hc.1, hc.2]
  · rw [if_neg hc]
    simp only [Bool.and_eq_true, decide_eq_true_eq,
      Bool.not_eq_true'] at hc
    simp only [pure, Except.pure, true_iff]
    exact hc

theorem validate_flow_ok_iff (ps : List (String × ParameterInfo))
    (inters : List InteractionInfo) (pn : String) :
    validate_flow_consistency ps inters pn = .ok () ↔
      ∀ kv ∈ ps, ¬(kv.2.producers.length > 1 ∧
        is_valid_parallel_production kv.1 kv.2.producers inters = false) := by
  unfold validate_flow_consistency
  rw [foldlM_unit_ok]
  refine forall_congr' fun kv => imp_congr_right fun _ => ?_
  exact flow_body_ok_iff inters pn kv

theorem validate_flow_error (ps : List (String × ParameterInfo))
    (inters : List InteractionInfo) (pn : String) (e : VError)
    (h : validate_flow_consistency ps inters pn = .error e) :
    ∃ kv ∈ ps, e = .multipleProducers kv.1 kv.2.producers pn ∧
      kv.2.producers.length > 1 ∧
      is_valid_parallel_production kv.1 kv.2.producers inters = false := by
  unfold validate_flow_consistency at h
  obtain ⟨kv, hkv, hbody⟩ := foldlM_unit_error _ _ _ h
  by_cases hc : kv.2.producers.length > 1 &&
      !is_valid_parallel_production kv.1 kv.2.producers inters
  · rw [if_pos hc] at hbody
    simp only [Bool.and_eq_true, decide_eq_true_eq,
      Bool.not_eq_true'] at hc
    exact ⟨kv, hkv, (Except.error.inj hbody).symm, hc.1, hc.2⟩
  · rw [if_neg hc] at hbody
    exact absurd hbody (by simp [pure, Except.pure])

theorem validate_causality_shape (ps : PMap)
    (inters : List InteractionInfo) (pn : String) :
    validate_causality ps inters pn = .ok () ∨
      ∃ cyc, validate_causality ps inters pn =
        .error (.causalityViolation pn cyc) := by
  unfold validate_causality
  by_cases h : (kahnRun (buildPrecedence ps inters) inters).length ≠
      inters.length
  · rw [if_pos h]
    exact .inr ⟨_, rfl⟩
  · rw [if_neg h]
    exact .inl rfl

theorem validate_causality_ok_iff (ps : PMap)
    (inters : List InteractionInfo) (pn : String) :
    validate_causality ps inters pn = .ok () ↔
      (kahnRun (buildPrecedence ps inters) inters).length =
        inters.length := by
  unfold validate_causality
  by_cases h : (kahnRun (buildPrecedence ps inters) inters).length ≠
      inters.length
  · rw [if_pos h]
    simp [h]
  · rw [if_neg h]
    simp [not_not.mp h]

theorem validate_causality_error (ps : PMap)
    (inters : List InteractionInfo) (pn : String) (e : VError)
    (h : validate_causality ps inters pn = .error e) :
    (kahnRun (buildPrecedence ps inters) inters).length ≠ inters.length ∧
      e = .causalityViolation pn
        (find_cycle_path (buildPrecedence ps inters)
          ((inters.map (·.action)).filter
            (fun a => a ∉ kahnRun (buildPrecedence ps inters) inters))) := by
  unfold validate_causality at h
  by_cases hc : (kahnRun (buildPrecedence ps inters) inters).length ≠
      inters.length
  · rw [if_pos hc] at h
    exact ⟨hc, (Except.error.inj h).symm⟩
  · rw [if_neg hc] at h
    exact absurd h (by simp)

theorem enact_body_ok_iff (ps : PMap) (pn : String)
    (i : InteractionInfo)
    (h : ∀ fl ∈ i.parameter_flows, ¬unreachableFlow ps fl) :
    ((if i.from_role = "Unknown" || i.to_role = "Unknown" then
        Except.error (VError.undefinedRoles i.action pn)
      else
        i.parameter_flows.foldlM (fun _ fl =>
          if fl.direction = "in" then
            match mapLookup ps fl.parameter with
            | some info =>
              if info.producers.isEmpty &&
                  !is_pre_protocol_parameter fl.parameter then
                Except.error (VError.enactUnproduced i.action fl.parameter)
              else pure ()
            | none => pure ()
          else pure ()) ()) = Except.ok ()) ↔
      ¬(i.from_role = "Unknown" ∨ i.to_role = "Unknown") := by
  by_cases hr : i.from_role = "Unknown" || i.to_role = "Unknown"
  · rw [if_pos hr]
    simp only [Bool.or_eq_true, decide_eq_true_eq] at hr
    simp [hr]
  · rw [if_neg hr]
    simp only [Bool.or_eq_true, decide_eq_true_eq] at hr
    simp only [hr, not_false_eq_true, iff_true]
    rw [foldlM_unit_ok]
    intro fl hfl
    exact (unreach_body_ok_iff ps fl _).mpr (h fl hfl)

theorem validate_enactability_ok (inters : List InteractionInfo)
    (ps : PMap) (pn : String)
    (h : ∀ i ∈ inters, ∀ fl ∈ i.parameter_flows, ¬unreachableFlow ps fl) :
    validate_enactability inters ps pn = .ok () ↔
      ∀ i ∈ inters,
        ¬(i.from_role = "Unknown" ∨ i.to_role = "Unknown") := by
  unfold validate_enactability
  rw [foldlM_unit_ok]
  refine forall_congr' fun i => imp_congr_right fun hi => ?_
  exact enact_body_ok_iff ps pn i (h i hi)

theorem validate_enactability_error (inters : List InteractionInfo)
    (ps : PMap) (pn : String) (e : VError)
    (h : validate_enactability inters ps pn = .error e) :
    (∃ i ∈ inters, e = .undefinedRoles i.action pn ∧
      (i.from_role = "Unknown" ∨ i.to_role = "Unknown")) ∨
    ∃ i ∈ inters, ∃ fl ∈ i.parameter_flows, unreachableFlow ps fl ∧
      e = .enactUnproduced i.action fl.parameter := by
  unfold validate_enactability at h
  obtain ⟨i, hi, hbody⟩ := foldlM_unit_error _ _ _ h
  by_cases hr : i.from_role = "Unknown" || i.to_role = "Unknown"
  · rw [if_pos hr] at hbody
    simp only [Bool.or_eq_true, decide_eq_true_eq] at hr
    exact .inl ⟨i, hi, (Except.error.inj hbody).symm, hr⟩
  · rw [if_neg hr] at hbody
    obtain ⟨fl, hfl, hflbody⟩ := foldlM_unit_error _ _ _ hbody
    obtain ⟨hv, he⟩ := (unreach_body_error_iff ps fl _ e).mp hflbody
    exact .inr ⟨i, hi, fl, hfl, hv, he⟩

/-! ### Pipeline plumbing -/

theorem bind_ok {α β : Type} (a : α) (f : α → Except VError β) :
    (Except.ok a >>= f) = f a := rfl

theorem bind_err {α β : Type} (e : VError) (f : α → Except VError β) :
    ((Except.error e : Except VError α) >>= f) = .error e := rfl

theorem exceptUnit_cases (r : Except VError Unit) :
    r = .ok () ∨ ∃ e, r = .error e := by
  cases r with
  | ok u => cases u; exact .inl rfl
  | error e => exact .inr ⟨e, rfl⟩

/-- With a successful collection phase, per-protocol flow validation is the
five passes in sequence. -/
theorem pipeline_eq (p : AstNode) (name : String) (d : List String)
    (inters : List InteractionInfo) (pinfo : PMap)
    (hc : collectProtocol p = .ok (name, d, inters, pinfo)) :
    validate_protocol_parameter_flow p =
      (validate_unreachable_interactions pinfo inters name >>= fun _ =>
        validate_flow_consistency pinfo inters name >>= fun _ =>
          validate_causality pinfo inters name >>= fun _ =>
            validate_completeness pinfo name >>= fun _ =>
              validate_enactability inters pinfo name) := by
  unfold validate_protocol_parameter_flow
  rw [hc]
  rfl

/-- The passes after the reachability pass never produce an
`unreachable`-shaped error. -/
theorem rest_no_unreachable (pinfo : PMap) (inters : List InteractionInfo)
    (name a q pn' : String) :
    (validate_flow_consistency pinfo inters name >>= fun _ =>
      validate_causality pinfo inters name >>= fun _ =>
        validate_completeness pinfo name >>= fun _ =>
          validate_enactability inters pinfo name) ≠
      .error (.unreachable a q pn') := by
  intro h
  rcases exceptUnit_cases (validate_flow_consistency pinfo inters name) with
    hf | ⟨e1, hf⟩
  · rw [hf, bind_ok] at h
    rcases exceptUnit_cases (validate_causality pinfo inters name) with
      hca | ⟨e2, hca⟩
    · rw [hca, bind_ok] at h
      rw [show validate_completeness pinfo name = .ok () from rfl,
        bind_ok] at h
      rcases exceptUnit_cases (validate_enactability inters pinfo name) with
        hen | ⟨e3, hen⟩
      · rw [hen] at h
        exact Except.noConfusion h
      · rw [hen] at h
        obtain rfl := Except.error.inj h
        rcases validate_enactability_error inters pinfo name _ hen with
          ⟨i, -, he, -⟩ | ⟨i, -, fl, -, -, he⟩ <;> exact VError.noConfusion he
    · rw [hca, bind_err] at h
      obtain rfl := Except.error.inj h
      obtain ⟨-, he⟩ := validate_causality_error pinfo inters name _ hca
      exact VError.noConfusion he
  · rw [hf, bind_err] at h
    obtain rfl := Except.error.inj h
    obtain ⟨kv, -, he, -⟩ := validate_flow_error pinfo inters name _ hf
    exact VError.noConfusion he

theorem is_pre_false_iff (q : String) :
    is_pre_protocol_parameter q = false ↔
      ¬(strUpper q = "ID" ∨ strUpper q = "TIMESTAMP" ∨ strUpper q = "NONCE" ∨
        strUpper q = "SESSION_ID") := by
  simp [is_pre_protocol_parameter, not_or, and_assoc]

/-- C3: with a successful collection phase, flow validation fails with an
`UnreachableInteraction` error exactly when some interaction has an `in`
flow on a parameter whose recorded producer set is empty and whose name
does not uppercase (case-insensitive match) to one of `ID`, `TIMESTAMP`,
`NONCE`, `SESSION_ID`; and any such error names an offending interaction
and parameter. -/
theorem c3_theorem (p : AstNode) (name : String) (d : List String)
    (inters : List InteractionInfo) (pinfo : PMap)
    (hc : collectProtocol p = .ok (name, d, inters, pinfo)) :
    ((∃ a q, validate_protocol_parameter_flow p =
        .error (.unreachable a q name)) ↔
      ∃ i ∈ inters, ∃ fl ∈ i.parameter_flows, fl.direction = "in" ∧
        ∃ info, mapLookup pinfo fl.parameter = some info ∧
          info.producers = [] ∧
          ¬(strUpper fl.parameter = "ID" ∨
            strUpper fl.parameter = "TIMESTAMP" ∨
            strUpper fl.parameter = "NONCE" ∨
            strUpper fl.parameter = "SESSION_ID")) ∧
    (∀ a q, validate_protocol_parameter_flow p =
        .error (.unreachable a q name) →
      ∃ i ∈ inters, i.action = a ∧ ∃ fl ∈ i.parameter_flows,
        fl.parameter = q ∧ unreachableFlow pinfo fl) := by
  have hpl := pipeline_eq p name d inters pinfo hc
  rcases exceptUnit_cases (validate_unreachable_interactions pinfo inters name)
    with hu | ⟨e, hu⟩
  · have hnov := (validate_unreachable_ok_iff pinfo inters name).mp hu
    have hno : ∀ a q, validate_protocol_parameter_flow p ≠
        .error (.unreachable a q name) := by
      intro a q h
      rw [hpl, hu, bind_ok] at h
      exact rest_no_unreachable pinfo inters name a q name h
    constructor
    · constructor
      · rintro ⟨a, q, h⟩
        exact absurd h (hno a q)
      · rintro ⟨i, hi, fl, hfl, hdir, info, hinfo, hprod, hnp⟩
        exact absurd ⟨hdir, info, hinfo, hprod,
            (is_pre_false_iff fl.parameter).mpr hnp⟩
          (hnov i hi fl hfl)
    · intro a q h
      exact absurd h (hno a q)
  · obtain ⟨i, hi, fl, hfl, hviol, he⟩ :=
      validate_unreachable_error pinfo inters name e hu
    have hpe : validate_protocol_parameter_flow p = .error e := by
      rw [hpl, hu, bind_err]
    constructor
    · constructor
      · rintro -
        refine ⟨i, hi, fl, hfl, hviol.1, ?_⟩
        obtain ⟨-, info, hinfo, hprod, hpre⟩ := hviol
        exact ⟨info, hinfo, hprod, (is_pre_false_iff fl.parameter).mp hpre⟩
      · rintro -
        exact ⟨i.action, fl.parameter, by rw [hpe, he]⟩
    · intro a q h
      rw [hpe, he] at h
      obtain ⟨ha, hq, -⟩ := VError.unreachable.inj (Except.error.inj h).symm
      exact ⟨i, hi, ha.symm, fl, hfl, hq.symm, hviol⟩

/-- C1, counterexample: in `c1ex` every interaction *producing* `p` has
`from_role = "A"`, so by the claim flow validation would accept `p` as a
parallel broadcast — but it fails with `MultipleProducers`, because
`is_valid_parallel_production` filters interactions by action *name* and
the producer name `a1` is shared with an unrelated interaction from role
`D`. -/
theorem c1_counterexample :
    (∀ i ∈ c1inters,
      (∃ fl ∈ i.parameter_flows, fl.direction = "out" ∧ fl.parameter = "p") →
        i.from_role = "A") ∧
    (mapLookup c1pinfo "p").map (·.producers) = some ["a1", "a2"] ∧
    validate_protocol_parameter_flow c1ex =
      .error (.multipleProducers "p" ["a1", "a2"] "P") := by
  refine ⟨by decide, by decide, by decide⟩

/-- C2: the original claim fails in both directions.  Part 1 (node count
vs. interaction count): `c2ex` carries two interactions sharing the action
name `act`; its precedence graph has no edges and the topological sort
emits every node, yet flow validation reports a `CausalityViolation` (with
the empty "unknown cycle" payload) because the emitted count is compared
against the interaction count.  Part 2 (per-edge-parameter vs.
any-shared-parameter exception): the duplicate-free `divEx` passes the
earlier passes and full flow validation returns `Ok`, although the
precedence graph built from the claim's own words — the parallel-branch
exception attached to the edge's inducing parameter — has the genuine
cycle `a → b → a` and its topological sort does not emit every node, so
the claim demands a `CausalityViolation`. -/
theorem c2_counterexample :
    (edgesOf c2graph = [] ∧
      (∀ n ∈ keysOf c2graph, n ∈ kahnRun c2graph c2inters) ∧
      validate_protocol_parameter_flow c2ex =
        .error (.causalityViolation "P2" [])) ∧
    ((divInters.map (·.action)).Nodup ∧
      validate_unreachable_interactions divPinfo divInters "DIV" = .ok () ∧
      validate_flow_consistency divPinfo divInters "DIV" = .ok () ∧
      validate_protocol_parameter_flow divEx = .ok () ∧
      isCycleList (spec_precedence divPinfo divInters) ["a", "b", "a"] ∧
      ¬ ∀ n ∈ keysOf (spec_precedence divPinfo divInters),
          n ∈ kahnRun (spec_precedence divPinfo divInters) divInters) := by
  refine ⟨⟨by decide, by decide, by decide⟩,
    by decide, by decide, by decide, by decide,
    ⟨by decide, by decide, by decide, by decide, trivial⟩, by decide⟩

/-- C4: flow-consistency validation of `c4ex` (two independently violating
parameters) reports a different `MultipleProducers` error depending on the
enumeration order of the parameter `HashMap` — the two orders below are
permutations of one another, as hash iteration orders are — so the verdict
is not invariant across invocations as the claim requires. -/
theorem c4_theorem :
    c4collect.isOk = true ∧
    List.Perm c4pinfo.reverse c4pinfo ∧
    validate_flow_consistency c4pinfo c4inters "P4" =
      .error (.multipleProducers "x" ["a1", "a2"] "P4") ∧
    validate_flow_consistency c4pinfo.reverse c4inters "P4" =
      .error (.multipleProducers "y" ["b1", "b2"] "P4") := by
  refine ⟨by decide, by decide, by decide, by decide⟩

/-- C5: a program with two top-level protocols both named `Dup` is accepted:
`ProtocolRegistry::from_program` silently keeps one entry (the later
overwrites the earlier), and `validate_protocol_composition` raises no
duplicate-name error. -/
theorem c5_theorem :
    (c5ex.children.map extract_protocol_name) = [.ok "Dup", .ok "Dup"] ∧
    (registry_from_program c5ex).map keysOf = .ok ["Dup"] ∧
    buildRegistryNames c5ex = .ok ["Dup"] ∧
    validate_protocol_composition c5ex = .ok () := by
  refine ⟨by decide, by decide, by decide, by decide⟩

/-- C6: the source `c6src`, whose `roles` and `parameters` sections contain
zero declarations, parses successfully (the PEG grammar uses zero-or-more
section repetitions), yielding a protocol with empty `RolesSection` and
`ParametersSection` children instead of the `ParseError` the claim
requires. -/
theorem c6_theorem :
    parse_source c6src = some c6ast ∧
    (c6ast.children.map (fun p => p.children.map (·.nodeType))) =
      [[.ProtocolName, .Annot, .RolesSection, .ParametersSection,
        .InteractionSection]] ∧
    (c6ast.children.map (fun p => p.children.map (fun s =>
      (s.nodeType, s.children.length)))) =
      [[(.ProtocolName, 0), (.Annot, 0), (.RolesSection, 0),
        (.ParametersSection, 0), (.InteractionSection, 1)]] := by
  refine ⟨rfl, by decide, by decide⟩

/-- C7: a protocol declaring the parameter `p` twice (as `Int`, then as
`String`) is not rejected: the collection pass silently merges the
declarations — the declared set has a single entry and the second type
wins — and full flow validation succeeds. -/
theorem c7_theorem :
    (c7ex.children.map (fun s =>
      if s.nodeType = .ParametersSection then s.children.length else 0)) =
      [0, 0, 2, 0] ∧
    collectProtocol c7ex =
      .ok ("P7", ["p"], [⟨"act", "A", "B", [⟨"out", "p"⟩]⟩],
        [("p", ⟨"p", "String", ["act"], []⟩)]) ∧
    validate_protocol_parameter_flow c7ex = .ok () := by
  refine ⟨by decide, by decide, by decide⟩

/-- C8, counterexample: `c8ex` declares only the role `M`, its single
interaction runs from `B` to `C` — neither a declared role — and flow
validation succeeds, where the claim requires a hard `UndefinedRole`
failure. -/
theorem c8_counterexample :
    extract_protocol_roles c8ex = ["M"] ∧
    (collectProtocol c8ex).map (fun r => r.2.2.1.map
      (fun i => (i.from_role, i.to_role))) = .ok [("B", "C")] ∧
    ("B" ∈ extract_protocol_roles c8ex) = False ∧
    ("C" ∈ extract_protocol_roles c8ex) = False ∧
    validate_protocol_parameter_flow c8ex = .ok () := by
  refine ⟨by decide, by decide, by decide, by decide, by decide⟩

/-- C10, counterexample: the composition `c10compNode` binds fewer than two
bare role identifiers, yet the protocol around it *is* reported as having
undefined roles, because the single binding is literally named `Unknown`
and the enactability check tests for that placeholder string. -/
theorem c10_counterexample :
    compositionRoleBindings c10compNode = ["Unknown"] ∧
    (compositionRoleBindings c10compNode).length < 2 ∧
    validate_protocol_parameter_flow c10ex =
      .error (.undefinedRoles "Chi" "PA") := by
  refine ⟨by decide, by decide, by decide⟩


/-- Witness for C3: at `c3wEx` (which consumes the never-produced parameter
`orphan`) the theorem yields the `UnreachableInteraction` failure. -/
theorem c3_witness :
    ∃ a q, validate_protocol_parameter_flow c3wEx =
      .error (.unreachable a q "PW3") :=
  (c3_theorem c3wEx "PW3" ["orphan"]
    [⟨"act", "A", "B", [⟨"in", "orphan"⟩]⟩]
    [("orphan", ⟨"orphan", "String", [], ["act"]⟩)] rfl).1.mpr
    ⟨⟨"act", "A", "B", [⟨"in", "orphan"⟩]⟩, by decide, ⟨"in", "orphan"⟩,
      by decide, rfl, ⟨"orphan", "String", [], ["act"]⟩, by decide, rfl,
      by decide⟩


/-- Characterization of `is_valid_parallel_production`: accepted exactly
when the producer set is small, or some interaction named in it exists and
all interactions named in it share its `from_role`. -/
theorem ivp_iff (pn : String) (prods : List String)
    (inters : List InteractionInfo) :
    is_valid_parallel_production pn prods inters = true ↔
      (prods.length ≤ 1 ∨
        ∃ i ∈ inters, i.action ∈ prods ∧
          ∀ j ∈ inters, j.action ∈ prods → j.from_role = i.from_role) := by
  unfold is_valid_parallel_production
  by_cases hlen : prods.length ≤ 1
  · simp [hlen]
  · rw [if_neg hlen]
    simp only [hlen, false_or]
    cases hf : inters.filter (fun i => decide (i.action ∈ prods)) with
    | nil =>
      constructor
      · intro h
        exact absurd h (by simp)
      · rintro ⟨i, hi, hai, -⟩
        have hmem : i ∈ inters.filter (fun i => decide (i.action ∈ prods)) :=
          List.mem_filter.mpr ⟨hi, by simpa⟩
        rw [hf] at hmem
        exact absurd hmem (List.not_mem_nil i)
    | cons first rest =>
      have hfirst : first ∈ inters.filter (fun i => decide (i.action ∈ prods)) := by
        rw [hf]
        exact List.mem_cons_self _ _
      have hf1 : first ∈ inters := (List.mem_filter.mp hfirst).1
      have hf2 : first.action ∈ prods := by
        simpa using (List.mem_filter.mp hfirst).2
      constructor
      · intro h
        refine ⟨first, hf1, hf2, fun j hj haj => ?_⟩
        have hjf : j ∈ inters.filter (fun i => decide (i.action ∈ prods)) :=
          List.mem_filter.mpr ⟨hj, by simpa⟩
        rw [hf] at hjf
        simpa using List.all_eq_true.mp h j hjf
      · rintro ⟨i, hi, hai, hall⟩
        rw [List.all_eq_true]
        intro j hjf
        rw [← hf] at hjf
        have hj := List.mem_filter.mp hjf
        have h1 := hall j hj.1 (by simpa using hj.2)
        have h2 := hall first hf1 hf2
        simp [h1, h2]

/-- The flow-consistency branch condition coincides with
`multiProducerViol`. -/
theorem flowCond_iff (inters : List InteractionInfo)
    (kv : String × ParameterInfo) :
    (kv.2.producers.length > 1 ∧
      is_valid_parallel_production kv.1 kv.2.producers inters = false) ↔
      multiProducerViol inters kv := by
  unfold multiProducerViol
  constructor
  · rintro ⟨h1, h2⟩
    refine ⟨h1, fun hex => ?_⟩
    have := (ivp_iff kv.1 kv.2.producers inters).mpr (.inr hex)
    rw [h2] at this
    exact Bool.noConfusion this
  · rintro ⟨h1, h2⟩
    refine ⟨h1, ?_⟩
    cases hb : is_valid_parallel_production kv.1 kv.2.producers inters with
    | false => rfl
    | true =>
      rcases (ivp_iff kv.1 kv.2.producers inters).mp hb with hle | hex
      · omega
      · exact absurd hex h2

/-- The passes after the flow-consistency pass never produce a
`multipleProducers`-shaped error. -/
theorem rest_no_multipleProducers (pinfo : PMap)
    (inters : List InteractionInfo) (name q : String) (pr : List String)
    (pn' : String) :
    (validate_causality pinfo inters name >>= fun _ =>
      validate_completeness pinfo name >>= fun _ =>
        validate_enactability inters pinfo name) ≠
      .error (.multipleProducers q pr pn') := by
  intro h
  rcases exceptUnit_cases (validate_causality pinfo inters name) with
    hca | ⟨e2, hca⟩
  · rw [hca, bind_ok] at h
    rw [show validate_completeness pinfo name = .ok () from rfl, bind_ok] at h
    rcases exceptUnit_cases (validate_enactability inters pinfo name) with
      hen | ⟨e3, hen⟩
    · rw [hen] at h
      exact Except.noConfusion h
    · rw [hen] at h
      obtain rfl := Except.error.inj h
      rcases validate_enactability_error inters pinfo name _ hen with
        ⟨i, -, he, -⟩ | ⟨i, -, fl, -, -, he⟩ <;> exact VError.noConfusion he
  · rw [hca, bind_err] at h
    obtain rfl := Except.error.inj h
    obtain ⟨-, he⟩ := validate_causality_error pinfo inters name _ hca
    exact VError.noConfusion he

/-- C1 (amended): with collection done and the reachability pass passing,
flow validation fails with a `MultipleProducers` error exactly when some
recorded parameter has more than one producer *name* and the interactions
*named* in its producer set do not all share one `from_role`; the error
names such a parameter together with its recorded producer set.  (The
original claim quantified over the interactions *producing* the parameter;
`c1_counterexample` shows the name-keyed filter makes that reading
false.) -/
theorem c1_theorem (p : AstNode) (name : String) (d : List String)
    (inters : List InteractionInfo) (pinfo : PMap)
    (hc : collectProtocol p = .ok (name, d, inters, pinfo))
    (hu : validate_unreachable_interactions pinfo inters name = .ok ()) :
    ((∃ q pr, validate_protocol_parameter_flow p =
        .error (.multipleProducers q pr name)) ↔
      ∃ kv ∈ pinfo, multiProducerViol inters kv) ∧
    (∀ q pr, validate_protocol_parameter_flow p =
        .error (.multipleProducers q pr name) →
      ∃ kv ∈ pinfo, kv.1 = q ∧ kv.2.producers = pr ∧
        multiProducerViol inters kv) := by
  have hpl := pipeline_eq p name d inters pinfo hc
  rw [hu, bind_ok] at hpl
  rcases exceptUnit_cases (validate_flow_consistency pinfo inters name) with
    hfl | ⟨e, hfl⟩
  · rw [hfl, bind_ok] at hpl
    have hno : ∀ q pr, validate_protocol_parameter_flow p ≠
        .error (.multipleProducers q pr name) := by
      intro q pr h
      rw [hpl] at h
      exact rest_no_multipleProducers pinfo inters name q pr name h
    have hok := (validate_flow_ok_iff pinfo inters name).mp hfl
    constructor
    · constructor
      · rintro ⟨q, pr, h⟩
        exact absurd h (hno q pr)
      · rintro ⟨kv, hkv, hviol⟩
        exact absurd ((flowCond_iff inters kv).mpr hviol) (hok kv hkv)
    · intro q pr h
      exact absurd h (hno q pr)
  · rw [hfl, bind_err] at hpl
    obtain ⟨kv, hkv, he, hcond1, hcond2⟩ :=
      validate_flow_error pinfo inters name e hfl
    have hviol := (flowCond_iff inters kv).mp ⟨hcond1, hcond2⟩
    constructor
    · constructor
      · rintro -
        exact ⟨kv, hkv, hviol⟩
      · rintro -
        exact ⟨kv.1, kv.2.producers, by rw [hpl, he]⟩
    · intro q pr h
      rw [hpl, he] at h
      obtain ⟨h1, h2, -⟩ := VError.multipleProducers.inj (Except.error.inj h)
      exact ⟨kv, hkv, h1, h2, hviol⟩

/-- Witness for C1: at `c1ex` the amended theorem yields the
`MultipleProducers` failure. -/
theorem c1_witness :
    ∃ q pr, validate_protocol_parameter_flow c1ex =
      .error (.multipleProducers q pr "P") :=
  (c1_theorem c1ex "P" ["p"]
    [⟨"a1", "A", "B", [⟨"out", "p"⟩]⟩, ⟨"a2", "A", "C", [⟨"out", "p"⟩]⟩,
     ⟨"a1", "D", "E", []⟩]
    [("p", ⟨"p", "String", ["a1", "a2"], []⟩)] rfl (by decide)).1.mpr
    ⟨("p", ⟨"p", "String", ["a1", "a2"], []⟩), by decide,
      by decide, by decide⟩


/-- C8 (amended): with collection done and the reachability, safety and
causality passes passing, flow validation succeeds exactly when no
interaction carries the `"Unknown"` role placeholder, and any hard failure
is an undefined-roles error naming an interaction whose extracted
`from_role` or `to_role` is literally `"Unknown"`.  Membership of the role
names in the protocol's declared roles section is never consulted
(`c8_counterexample`). -/
theorem c8_theorem (p : AstNode) (name : String) (d : List String)
    (inters : List InteractionInfo) (pinfo : PMap)
    (hc : collectProtocol p = .ok (name, d, inters, pinfo))
    (hu : validate_unreachable_interactions pinfo inters name = .ok ())
    (hf : validate_flow_consistency pinfo inters name = .ok ())
    (hca : validate_causality pinfo inters name = .ok ()) :
    (validate_protocol_parameter_flow p = .ok () ↔
      ∀ i ∈ inters, ¬(i.from_role = "Unknown" ∨ i.to_role = "Unknown")) ∧
    (∀ e, validate_protocol_parameter_flow p = .error e →
      ∃ i ∈ inters, e = .undefinedRoles i.action name ∧
        (i.from_role = "Unknown" ∨ i.to_role = "Unknown")) := by
  have hpl := pipeline_eq p name d inters pinfo hc
  rw [hu, bind_ok, hf, bind_ok, hca, bind_ok,
    show validate_completeness pinfo name = .ok () from rfl, bind_ok] at hpl
  have hnov := (validate_unreachable_ok_iff pinfo inters name).mp hu
  constructor
  · rw [hpl]
    exact validate_enactability_ok inters pinfo name hnov
  · intro e h
    rw [hpl] at h
    rcases validate_enactability_error inters pinfo name e h with
      ⟨i, hi, he, hr⟩ | ⟨i, hi, fl, hfl, hv, -⟩
    · exact ⟨i, hi, he, hr⟩
    · exact absurd hv (hnov i hi fl hfl)

/-- Witness for C8: at `c8wEx`, whose interaction node has no role
references so extraction leaves both placeholders at `"Unknown"`, the
theorem shows flow validation cannot succeed. -/
theorem c8_witness : validate_protocol_parameter_flow c8wEx ≠ .ok () :=
  fun h =>
    (by decide : ¬∀ i ∈ ([⟨"act", "Unknown", "Unknown", []⟩] :
        List InteractionInfo),
      ¬(i.from_role = "Unknown" ∨ i.to_role = "Unknown"))
    ((c8_theorem c8wEx "PW8" ["p"]
      [⟨"act", "Unknown", "Unknown", []⟩] [("p", ⟨"p", "Int", [], []⟩)]
      rfl (by decide) (by decide) (by decide)).1.mp h)

/-- C10 (amended): a composition binding fewer than two bare role
identifiers, none of which is literally named `"Unknown"`, is extracted
with the missing `from_role` and/or `to_role` padded to `"System"`, and the
enactability pass never reports it as having undefined roles. -/
theorem c10_theorem (n : AstNode)
    (h1 : (compositionRoleBindings n).length < 2)
    (h2 : "Unknown" ∉ compositionRoleBindings n) :
    (compositionRoleBindings n = [] →
      (extract_composition_interaction n).from_role = "System" ∧
      (extract_composition_interaction n).to_role = "System") ∧
    (∀ r, compositionRoleBindings n = [r] →
      (extract_composition_interaction n).from_role = r ∧
      (extract_composition_interaction n).to_role = "System") ∧
    (extract_composition_interaction n).from_role ≠ "Unknown" ∧
    (extract_composition_interaction n).to_role ≠ "Unknown" ∧
    (∀ (ps : PMap) (pn : String),
      validate_enactability [extract_composition_interaction n] ps pn ≠
        .error (.undefinedRoles
          (extract_composition_interaction n).action pn)) := by
  have hroles : (extract_composition_interaction n).from_role =
      ((if (compositionRoleBindings n).length < 2 then
          compositionRoleBindings n ++
            List.replicate (2 - (compositionRoleBindings n).length) "System"
        else compositionRoleBindings n).headD "System") ∧
      (extract_composition_interaction n).to_role =
      (((if (compositionRoleBindings n).length < 2 then
          compositionRoleBindings n ++
            List.replicate (2 - (compositionRoleBindings n).length) "System"
        else compositionRoleBindings n).drop 1).headD "System") := by
    constructor <;> rfl
  have hft : (extract_composition_interaction n).from_role ≠ "Unknown" ∧
      (extract_composition_interaction n).to_role = "System" := by
    cases hN : compositionRoleBindings n with
    | nil =>
      rw [hN] at hroles
      refine ⟨?_, ?_⟩
      · rw [hroles.1]
        decide
      · rw [hroles.2]
        rfl
    | cons r tail =>
      cases tail with
      | nil =>
        rw [hN] at hroles
        refine ⟨?_, ?_⟩
        · rw [hroles.1]
          simp only [List.length_cons, List.length_nil]
          intro hr
          apply h2
          rw [hN, ← hr]
          simp
        · rw [hroles.2]
          rfl
      | cons s tail2 =>
        rw [hN] at h1
        simp at h1
        omega
  have hunk : (extract_composition_interaction n).from_role ≠ "Unknown" ∧
      (extract_composition_interaction n).to_role ≠ "Unknown" := by
    refine ⟨hft.1, ?_⟩
    rw [hft.2]
    decide
  refine ⟨?_, ?_, hunk.1, hunk.2, ?_⟩
  · intro hN
    rw [hN] at hroles
    exact ⟨by rw [hroles.1]; rfl, hft.2⟩
  · intro r hN
    rw [hN] at hroles
    exact ⟨by rw [hroles.1]; rfl, hft.2⟩
  · intro ps pn h
    rcases validate_enactability_error _ ps pn _ h with
      ⟨j, hj, he, hr⟩ | ⟨j, hj, fl, hfl, hv, he⟩
    · obtain rfl := List.mem_singleton.mp hj
      rcases hr with hr | hr
      · exact hunk.1 hr
      · exact hunk.2 hr
    · exact VError.noConfusion he

/-- Witness for C10: the composition binding the single identifier `R` is
padded to `R → System` and survives the enactability role check. -/
theorem c10_witness :
    (extract_composition_interaction c10okComp).from_role = "R" ∧
    (extract_composition_interaction c10okComp).to_role = "System" ∧
    validate_enactability [extract_composition_interaction c10okComp] []
        "PB" ≠
      .error (.undefinedRoles
        (extract_composition_interaction c10okComp).action "PB") := by
  have h := c10_theorem c10okComp (by decide) (by decide)
  exact ⟨(h.2.1 "R" (by decide)).1, (h.2.1 "R" (by decide)).2,
    h.2.2.2.2 [] "PB"⟩


/-! ### Composition-validation lemmas -/

theorem insertSet_self (s : List String) (x : String) : x ∈ insertSet s x := by
  unfold insertSet
  by_cases h : x ∈ s
  · simp [h]
  · simp [h]

theorem insertSet_mono (s : List String) (x y : String) (h : y ∈ s) :
    y ∈ insertSet s x := by
  unfold insertSet
  by_cases hx : x ∈ s
  · simpa [hx]
  · simp [hx, h]

/-- An Except `pure` is an `ok`. -/
theorem pureExcept {α : Type} (x : α) :
    (pure x : Except VError α) = Except.ok x := rfl

/-- Full case analysis of `validate_single_composition`. -/
theorem vsc_characterization (comp : AstNode) (reg : List String)
    (parent : String) :
    (validate_single_composition comp reg parent = .ok () ↔
      ∃ n, referencedProtocolName comp = some n ∧ n ∈ reg ∧ n ≠ parent) ∧
    (validate_single_composition comp reg parent =
        .error (.directRecursion parent) ↔
      referencedProtocolName comp = some parent ∧ parent ∈ reg) ∧
    (∀ n, validate_single_composition comp reg parent =
        .error (.unknownProtocolRef parent n) ↔
      referencedProtocolName comp = some n ∧ n ∉ reg) := by
  cases hr : referencedProtocolName comp with
  | none =>
    refine ⟨?_, ?_, ?_⟩ <;> simp [validate_single_composition, hr]
  | some m =>
    by_cases hm : m ∈ reg
    · by_cases hp : m = parent
      · subst hp
        have he : validate_single_composition comp reg m =
            .error (.directRecursion m) := by
          unfold validate_single_composition
          rw [hr]
          simp [hm]
        refine ⟨?_, ?_, ?_⟩
        · rw [he]
          constructor
          · intro h
            exact Except.noConfusion h
          · rintro ⟨n, hn, -, hne⟩
            exact absurd (Option.some.inj hn).symm hne
        · rw [he]
          simp [hm]
        · intro n
          rw [he]
          constructor
          · intro h
            exact VError.noConfusion (Except.error.inj h)
          · rintro ⟨hn, hnm⟩
            obtain rfl := Option.some.inj hn
            exact absurd hm hnm
      · have he : validate_single_composition comp reg parent = .ok () := by
          unfold validate_single_composition
          rw [hr]
          simp [hm, hp]
        refine ⟨?_, ?_, ?_⟩
        · rw [he]
          simp only [true_iff]
          exact ⟨m, rfl, hm, hp⟩
        · rw [he]
          constructor
          · intro h
            exact Except.noConfusion h
          · rintro ⟨hn, -⟩
            exact absurd (Option.some.inj hn) hp
        · intro n
          rw [he]
          constructor
          · intro h
            exact Except.noConfusion h
          · rintro ⟨hn, hnm⟩
            obtain rfl := Option.some.inj hn
            exact absurd hm hnm
    · have he : validate_single_composition comp reg parent =
          .error (.unknownProtocolRef parent m) := by
        unfold validate_single_composition
        rw [hr]
        simp [hm]
      refine ⟨?_, ?_, ?_⟩
      · rw [he]
        constructor
        · intro h
          exact Except.noConfusion h
        · rintro ⟨n, hn, hmem, -⟩
          obtain rfl := Option.some.inj hn
          exact absurd hmem hm
      · rw [he]
        constructor
        · intro h
          exact absurd (Except.error.inj h) (fun hh => VError.noConfusion hh)
        · rintro ⟨hn, hmem⟩
          obtain rfl := Option.some.inj hn
          exact absurd hmem hm
      · intro n
        rw [he]
        constructor
        · intro h
          obtain ⟨-, hmn⟩ :=
            VError.unknownProtocolRef.inj (Except.error.inj h)
          subst hmn
          exact ⟨rfl, hm⟩
        · rintro ⟨hn, -⟩
          obtain rfl := Option.some.inj hn
          rfl

/-- The registry built by `buildRegistryNames` contains every extractable
top-level protocol name (accumulator form). -/
theorem buildReg_complete_aux (l : List AstNode) (acc reg : List String)
    (h : l.foldlM (fun acc c =>
        if c.nodeType = .Protocol then do
          let n ← extract_protocol_name c
          pure (insertSet acc n)
        else pure acc) acc = .ok reg) :
    (∀ x ∈ acc, x ∈ reg) ∧
      ∀ c ∈ l, c.nodeType = .Protocol →
        ∀ n, extract_protocol_name c = .ok n → n ∈ reg := by
  induction l generalizing acc with
  | nil =>
    have : acc = reg := by
      simpa [List.foldlM, pure, Except.pure] using h
    subst this
    exact ⟨fun x hx => hx, fun c hc => absurd hc (List.not_mem_nil c)⟩
  | cons a l ih =>
    rw [List.foldlM_cons] at h
    by_cases ha : a.nodeType = .Protocol
    · rw [if_pos ha] at h
      cases hx : extract_protocol_name a with
      | error e =>
        rw [hx, bind_err, bind_err] at h
        exact absurd h (by simp)
      | ok na =>
        rw [hx, bind_ok, pureExcept, bind_ok] at h
        obtain ⟨hmono, hcompl⟩ := ih (insertSet acc na) h
        refine ⟨fun x hx => hmono x (insertSet_mono acc na x hx), ?_⟩
        intro c hc hct n hn
        rcases List.mem_cons.mp hc with rfl | hc
        · rw [hx] at hn
          obtain rfl := Except.ok.inj hn
          exact hmono na (insertSet_self acc na)
        · exact hcompl c hc hct n hn
    · rw [if_neg ha, pureExcept, bind_ok] at h
      obtain ⟨hmono, hcompl⟩ := ih acc h
      refine ⟨hmono, ?_⟩
      intro c hc hct n hn
      rcases List.mem_cons.mp hc with rfl | hc
      · exact absurd hct ha
      · exact hcompl c hc hct n hn

/-- C9: `validate_single_composition` succeeds exactly on a registered,
non-self reference, reports `DirectRecursion` exactly on a registered
self-reference and an unknown-reference error exactly on an unregistered
name; the registry contains every top-level protocol's name (so a
self-reference is always registered and yields `DirectRecursion`); and a
program accepted by `validate_protocol_composition` has no composition
whose reference is unregistered or equal to its enclosing protocol's
name. -/
theorem c9_theorem :
    (∀ (comp : AstNode) (reg : List String) (parent : String),
      (validate_single_composition comp reg parent = .ok () ↔
        ∃ n, referencedProtocolName comp = some n ∧ n ∈ reg ∧ n ≠ parent) ∧
      (validate_single_composition comp reg parent =
          .error (.directRecursion parent) ↔
        referencedProtocolName comp = some parent ∧ parent ∈ reg) ∧
      (∀ n, validate_single_composition comp reg parent =
          .error (.unknownProtocolRef parent n) ↔
        referencedProtocolName comp = some n ∧ n ∉ reg)) ∧
    (∀ (ast : AstNode) (reg : List String),
      buildRegistryNames ast = .ok reg →
      ∀ c ∈ ast.children, c.nodeType = .Protocol →
        ∀ n, extract_protocol_name c = .ok n → n ∈ reg) ∧
    (∀ (ast : AstNode), validate_protocol_composition ast = .ok () →
      ∀ c ∈ ast.children, c.nodeType = .Protocol →
        ∀ parent, extract_protocol_name c = .ok parent →
          ∀ sec ∈ c.children, sec.nodeType = .InteractionSection →
            ∀ item ∈ sec.children, item.nodeType = .InteractionItem →
              ∀ ic ∈ item.children, ic.nodeType = .ProtocolComposition →
                ∃ reg n, buildRegistryNames ast = .ok reg ∧
                  referencedProtocolName ic = some n ∧ n ∈ reg ∧
                  n ≠ parent) := by
  refine ⟨vsc_characterization, ?_, ?_⟩
  · intro ast reg h
    exact (buildReg_complete_aux ast.children [] reg h).2
  · intro ast h c hc htype parent hpar sec hsec hstype item hitem hitype
      ic hic hictype
    unfold validate_protocol_composition at h
    by_cases hpn : ast.nodeType ≠ .Program
    · rw [if_pos hpn] at h
      exact absurd h (by simp)
    · rw [if_neg hpn] at h
      cases hreg : buildRegistryNames ast with
      | error e =>
        rw [hreg, bind_err] at h
        exact absurd h (by simp)
      | ok reg =>
        rw [hreg, bind_ok] at h
        have h1 := (foldlM_unit_ok _ ast.children).mp h c hc
        rw [if_pos htype] at h1
        unfold validate_composition_references at h1
        rw [hpar, bind_ok] at h1
        have h2 := (foldlM_unit_ok _ c.children).mp h1 sec hsec
        rw [if_pos hstype] at h2
        have h3 := (foldlM_unit_ok _ sec.children).mp h2 item hitem
        rw [if_pos hitype] at h3
        have h4 := (foldlM_unit_ok _ item.children).mp h3 ic hic
        rw [if_pos hictype] at h4
        obtain ⟨n, hn, hmem, hne⟩ :=
          (vsc_characterization ic reg parent).1.mp h4
        exact ⟨reg, n, rfl, hn, hmem, hne⟩

/-- Witness for C9: in `c9exOk` the composition inside `Par` references the
registered sibling `Chi`, and the acceptance of the program certifies the
reference is registered and non-self. -/
theorem c9_witness :
    ∃ reg n, buildRegistryNames c9exOk = .ok reg ∧
      referencedProtocolName c9compNode = some n ∧ n ∈ reg ∧ n ≠ "Par" :=
  c9_theorem.2.2 c9exOk (by decide) c9parent (List.mem_cons_self _ _) rfl
    "Par" rfl c9isec
    (List.mem_cons_of_mem _ (List.mem_cons_of_mem _
      (List.mem_cons_of_mem _ (List.mem_cons_self _ _)))) rfl
    c9item (List.mem_cons_self _ _) rfl
    c9compNode (List.mem_cons_self _ _) rfl


/-! ### Graph lemmas for the causality pass -/

theorem mem_edgesOf (g : Graph) (e : String × String) :
    e ∈ edgesOf g ↔ ∃ kv ∈ g, kv.1 = e.1 ∧ e.2 ∈ kv.2 := by
  unfold edgesOf
  rw [List.mem_flatMap]
  constructor
  · rintro ⟨kv, hkv, hmem⟩
    obtain ⟨v, hv, hev⟩ := List.mem_map.mp hmem
    exact ⟨kv, hkv, by rw [← hev], by rw [← hev]; exact hv⟩
  · rintro ⟨kv, hkv, h1, h2⟩
    refine ⟨kv, hkv, List.mem_map.mpr ⟨e.2, h2, ?_⟩⟩
    rw [h1]

theorem edges_src_mem (g : Graph) (e : String × String)
    (h : e ∈ edgesOf g) : e.1 ∈ keysOf g := by
  obtain ⟨kv, hkv, h1, -⟩ := (mem_edgesOf g e).mp h
  exact h1 ▸ List.mem_map_of_mem (·.1) hkv

theorem lookup_of_mem_nodup {β : Type} (g : List (String × β))
    (hnd : (keysOf g).Nodup) (u : String) (a : β) (h : (u, a) ∈ g) :
    mapLookup g u = some a := by
  induction g with
  | nil => exact absurd h (List.not_mem_nil _)
  | cons kv rest ih =>
    obtain ⟨hhead, hrest⟩ := List.nodup_cons.mp hnd
    rcases List.mem_cons.mp h with rfl | h
    · simp [mapLookup]
    · have hu : kv.1 ≠ u := by
        intro hk
        apply hhead
        show kv.1 ∈ List.map (fun x => x.1) rest
        rw [hk]
        exact List.mem_map_of_mem (·.1) h
      simp only [mapLookup, if_neg hu]
      exact ih hrest h

theorem mem_lookupAdj_iff_edge (g : Graph) (hnd : (keysOf g).Nodup)
    (u v : String) : v ∈ lookupAdj g u ↔ (u, v) ∈ edgesOf g := by
  constructor
  · intro h
    unfold lookupAdj at h
    cases hl : mapLookup g u with
    | none => rw [hl] at h; exact absurd h (List.not_mem_nil v)
    | some adj =>
      rw [hl] at h
      exact (mem_edgesOf g (u, v)).mpr ⟨(u, adj), lookup_mem g u adj hl, rfl, h⟩
  · intro h
    obtain ⟨kv, hkv, h1, h2⟩ := (mem_edgesOf g (u, v)).mp h
    obtain ⟨k, adj⟩ := kv
    have hk : k = u := h1
    subst hk
    unfold lookupAdj
    rw [lookup_of_mem_nodup g hnd k adj hkv]
    exact h2

theorem countP_split {α : Type} (l : List α) (p q : α → Bool) :
    l.countP p =
      l.countP (fun a => p a && q a) + l.countP (fun a => p a && !q a) := by
  induction l with
  | nil => simp
  | cons a l ih =>
    by_cases hp : p a
    · by_cases hq : q a
      · simp [List.countP_cons, hp, hq, ih]
        omega
      · simp [List.countP_cons, hp, hq, ih]
        omega
    · simp [List.countP_cons, hp, ih]

theorem inCount_pos_elim (g : Graph) (n : String) (s : List String)
    (h : inCount g n s ≠ 0) : ∃ u, (u, n) ∈ edgesOf g ∧ u ∉ s := by
  unfold inCount at h
  have hpos : 0 < (edgesOf g).countP (fun e => decide (e.2 = n ∧ e.1 ∉ s)) :=
    Nat.pos_of_ne_zero h
  obtain ⟨e, he, hp⟩ := List.countP_pos.mp hpos
  rw [decide_eq_true_eq] at hp
  exact ⟨e.1, by rw [show (e.1, n) = e from Prod.ext rfl hp.1.symm]; exact he,
    hp.2⟩

theorem inCount_pos_of_edge (g : Graph) (u n : String) (s : List String)
    (he : (u, n) ∈ edgesOf g) (hu : u ∉ s) : inCount g n s ≠ 0 := by
  unfold inCount
  intro h
  rw [List.countP_eq_zero] at h
  have h2 := h (u, n) he
  simp at h2
  exact hu h2

theorem inCount_zero_mono (g : Graph) (n : String) (s s' : List String)
    (hsub : ∀ x ∈ s, x ∈ s') (h : inCount g n s = 0) :
    inCount g n s' = 0 := by
  unfold inCount at h ⊢
  rw [List.countP_eq_zero] at h ⊢
  intro e he
  simp only [decide_eq_true_eq, not_and] at h ⊢
  intro h2 hns
  exact (h e he h2) fun hmem => hns (hsub e.1 hmem)

theorem inCount_step (g : Graph) (n c : String) (s : List String)
    (hc : c ∉ s) :
    inCount g n s =
      (edgesOf g).countP (fun e => decide (e.2 = n ∧ e.1 = c)) +
        inCount g n (s ++ [c]) := by
  unfold inCount
  rw [countP_split (edgesOf g) (fun e => decide (e.2 = n ∧ e.1 ∉ s))
    (fun e => decide (e.1 = c))]
  congr 1
  · apply List.countP_congr
    intro e _
    by_cases h1 : e.2 = n
    · by_cases h2 : e.1 = c
      · simp [h1, h2, hc]
      · simp [h1, h2]
    · simp [h1]
  · apply List.countP_congr
    intro e _
    by_cases h1 : e.2 = n
    · by_cases h2 : e.1 = c
      · simp [h1, h2]
      · by_cases h3 : e.1 ∈ s
        · simp [h1, h2, h3]
        · simp [h1, h2, h3]
    · simp [h1]

theorem count_eq_countP_dec (l : List String) (x : String) :
    l.count x = l.countP (fun a => decide (a = x)) := by
  rw [List.count]
  apply List.countP_congr
  intro a _
  simp

theorem edgesFrom_count (g : Graph) (hnd : (keysOf g).Nodup)
    (c n : String) :
    (edgesOf g).countP (fun e => decide (e.2 = n ∧ e.1 = c)) =
      (lookupAdj g c).count n := by
  induction g with
  | nil => simp [edgesOf, lookupAdj, mapLookup]
  | cons kv rest ih =>
    obtain ⟨hhead, hrest⟩ := List.nodup_cons.mp hnd
    have hstep : edgesOf (kv :: rest) =
        kv.2.map (fun v => (kv.1, v)) ++ edgesOf rest := rfl
    rw [hstep, List.countP_append]
    by_cases hk : kv.1 = c
    · have hz : (edgesOf rest).countP
          (fun e => decide (e.2 = n ∧ e.1 = c)) = 0 := by
        rw [List.countP_eq_zero]
        intro e he
        simp only [decide_eq_true_eq, not_and]
        rintro - hec
        apply hhead
        show kv.1 ∈ List.map (fun x => x.1) rest
        rw [hk]
        rw [← hec]
        exact edges_src_mem rest e he
      rw [hz]
      have hmap : (kv.2.map (fun v => (kv.1, v))).countP
          (fun e => decide (e.2 = n ∧ e.1 = c)) = kv.2.count n := by
        rw [List.countP_map, count_eq_countP_dec]
        apply List.countP_congr
        intro v _
        simp [hk]
      rw [hmap]
      unfold lookupAdj
      obtain ⟨k, adj⟩ := kv
      obtain rfl : k = c := hk
      simp [mapLookup]
    · have hmap : (kv.2.map (fun v => (kv.1, v))).countP
          (fun e => decide (e.2 = n ∧ e.1 = c)) = 0 := by
        rw [List.countP_eq_zero]
        intro e he
        obtain ⟨v, -, hev⟩ := List.mem_map.mp he
        simp only [decide_eq_true_eq, not_and]
        rintro -
        rw [← hev]
        exact hk
      rw [hmap, Nat.zero_add]
      have : lookupAdj (kv :: rest) c = lookupAdj rest c := by
        unfold lookupAdj
        simp [mapLookup, hk]
      rw [this]
      exact ih hrest

theorem inCount_adj_split (g : Graph) (hnd : (keysOf g).Nodup)
    (n c : String) (s : List String) (hc : c ∉ s) :
    inCount g n s = (lookupAdj g c).count n + inCount g n (s ++ [c]) := by
  rw [inCount_step g n c s hc, edgesFrom_count g hnd c n]


/-! ### Degree-table and graph-construction lemmas -/

theorem foldl_preserves {σ α : Type} (P : σ → Prop) (f : σ → α → σ)
    (l : List α) (s : σ) (hs : P s)
    (hstep : ∀ s a, a ∈ l → P s → P (f s a)) : P (l.foldl f s) := by
  induction l generalizing s with
  | nil => exact hs
  | cons a l ih =>
    rw [List.foldl_cons]
    exact ih (f s a) (hstep s a (List.mem_cons_self a l) hs)
      (fun s' a' ha' => hstep s' a' (List.mem_cons_of_mem a ha'))

theorem bumpDeg_lookup (d : List (String × Nat)) (s n : String) :
    mapLookup (bumpDeg d s) n =
      if s = n then (mapLookup d n).map (· + 1) else mapLookup d n := by
  induction d with
  | nil =>
    by_cases h : s = n <;> simp [bumpDeg, mapLookup, h]
  | cons kv rest ih =>
    obtain ⟨k, m⟩ := kv
    by_cases hks : k = s
    · subst hks
      by_cases hkn : k = n
      · subst hkn
        simp [bumpDeg, mapLookup]
      · simp [bumpDeg, mapLookup, hkn, Ne.symm hkn]
    · by_cases hkn : k = n
      · subst hkn
        have hsn : s ≠ k := fun h => hks h.symm
        simp [bumpDeg, hks, mapLookup, hsn]
      · simp [bumpDeg, hks, mapLookup, hkn, ih]

theorem bumpFold_lookup (L : List String) (d : List (String × Nat))
    (n : String) :
    mapLookup (L.foldl bumpDeg d) n =
      (mapLookup d n).map (· + L.count n) := by
  induction L generalizing d with
  | nil => cases h : mapLookup d n <;> simp [h]
  | cons a L ih =>
    rw [List.foldl_cons, ih, bumpDeg_lookup]
    by_cases ha : a = n
    · subst ha
      cases h : mapLookup d a <;> simp [List.count_cons, h] <;> omega
    · cases h : mapLookup d n <;>
        simp [List.count_cons, ha, Ne.symm ha, h]

theorem degrees_fold (G : Graph) (d : List (String × Nat)) (n : String) :
    mapLookup (G.foldl (fun d kv => kv.2.foldl bumpDeg d) d) n =
      (mapLookup d n).map
        (· + (edgesOf G).countP (fun e => decide (e.2 = n))) := by
  induction G generalizing d with
  | nil => cases h : mapLookup d n <;> simp [edgesOf, h]
  | cons kv G ih =>
    have hstep : edgesOf (kv :: G) =
        kv.2.map (fun v => (kv.1, v)) ++ edgesOf G := rfl
    rw [List.foldl_cons, ih, bumpFold_lookup, hstep, List.countP_append,
      List.countP_map]
    have hc : kv.2.countP
        ((fun e => decide (e.2 = n)) ∘ (fun v => (kv.1, v))) =
        kv.2.count n := by
      rw [count_eq_countP_dec]
      apply List.countP_congr
      intro v _
      simp [Function.comp]
    rw [hc]
    cases mapLookup d n <;> simp <;> omega

theorem fold_insert_lookup {β : Type} (l : List InteractionInfo) (val : β)
    (m : List (String × β)) (n : String) :
    mapLookup (l.foldl (fun d i => mapInsert d i.action val) m) n =
      if n ∈ l.map (·.action) then some val else mapLookup m n := by
  induction l generalizing m with
  | nil => simp
  | cons i l ih =>
    rw [List.foldl_cons, ih]
    by_cases hl : n ∈ l.map (·.action)
    · simp [hl]
    · by_cases hn : n = i.action
      · subst hn
        simp [hl, mapLookup_insert_self]
      · simp [hl, hn, mapLookup_insert_ne m i.action n val hn]

theorem mem_keysOf_insert {β : Type} (m : List (String × β)) (k n : String)
    (v : β) : n ∈ keysOf (mapInsert m k v) ↔ n ∈ keysOf m ∨ n = k := by
  rw [keysOf_insert]
  by_cases h : k ∈ keysOf m
  · rw [if_pos h]
    constructor
    · exact Or.inl
    · rintro (h1 | rfl)
      · exact h1
      · exact h
  · rw [if_neg h]
    simp

theorem mem_keysOf_fold_insert {β : Type} (l : List InteractionInfo)
    (val : β) (m : List (String × β)) (n : String) :
    n ∈ keysOf (l.foldl (fun d i => mapInsert d i.action val) m) ↔
      n ∈ keysOf m ∨ n ∈ l.map (·.action) := by
  induction l generalizing m with
  | nil => simp
  | cons i l ih =>
    rw [List.foldl_cons, ih, mem_keysOf_insert]
    simp only [List.map_cons, List.mem_cons]
    constructor
    · rintro ((h | rfl) | h)
      · exact Or.inl h
      · exact Or.inr (Or.inl rfl)
      · exact Or.inr (Or.inr h)
    · rintro (h | rfl | h)
      · exact Or.inl (Or.inl h)
      · exact Or.inl (Or.inr rfl)
      · exact Or.inr h

theorem keysOf_fold_insert_nodup {β : Type} (l : List InteractionInfo)
    (val : β) (m : List (String × β)) (hm : (keysOf m).Nodup) :
    (keysOf (l.foldl (fun d i => mapInsert d i.action val) m)).Nodup := by
  apply foldl_preserves (fun d => (keysOf d).Nodup)
  · exact hm
  · intro d i _ hd
    exact keysOf_insert_nodup d i.action val hd

theorem keysOf_fold_insert_eq {β : Type} (l : List InteractionInfo)
    (val : β) (m : List (String × β))
    (hnd : (keysOf m ++ l.map (·.action)).Nodup) :
    keysOf (l.foldl (fun d i => mapInsert d i.action val) m) =
      keysOf m ++ l.map (·.action) := by
  induction l generalizing m with
  | nil => simp
  | cons i l ih =>
    obtain ⟨-, -, hdisj⟩ := List.nodup_append.mp hnd
    have hia : i.action ∉ keysOf m :=
      fun hmem => hdisj hmem (List.mem_cons_self _ _)
    rw [List.foldl_cons]
    have hkeys : keysOf (mapInsert m i.action val) =
        keysOf m ++ [i.action] := by
      rw [keysOf_insert, if_neg hia]
    have hnd' : (keysOf (mapInsert m i.action val) ++
        l.map (·.action)).Nodup := by
      rw [hkeys, List.append_assoc]
      simpa using hnd
    rw [ih (mapInsert m i.action val) hnd', hkeys, List.append_assoc]
    rfl

theorem degreeInit_lookup (inters : List InteractionInfo) (n : String) :
    mapLookup (degreeInit inters) n =
      if n ∈ inters.map (·.action) then some 0 else none := by
  unfold degreeInit
  rw [fold_insert_lookup]
  rfl

theorem degreeInit_keys_nodup (inters : List InteractionInfo) :
    (keysOf (degreeInit inters)).Nodup :=
  keysOf_fold_insert_nodup inters 0 [] List.nodup_nil

theorem mem_degreeInit_keys (inters : List InteractionInfo) (n : String) :
    n ∈ keysOf (degreeInit inters) ↔ n ∈ inters.map (·.action) := by
  unfold degreeInit
  rw [mem_keysOf_fold_insert]
  simp [keysOf]

theorem degreeInit_keys_eq (inters : List InteractionInfo)
    (hnd : (inters.map (·.action)).Nodup) :
    keysOf (degreeInit inters) = inters.map (·.action) := by
  unfold degreeInit
  rw [keysOf_fold_insert_eq inters 0 [] (by simpa [keysOf] using hnd)]
  rfl

theorem graphInit_lookupAdj (inters : List InteractionInfo) (u : String) :
    lookupAdj (graphInit inters) u = [] := by
  unfold lookupAdj graphInit
  rw [fold_insert_lookup]
  by_cases h : u ∈ inters.map (·.action) <;> simp [h, mapLookup]

theorem graphInit_keys_nodup (inters : List InteractionInfo) :
    (keysOf (graphInit inters)).Nodup :=
  keysOf_fold_insert_nodup inters [] [] List.nodup_nil

theorem mem_graphInit_keys (inters : List InteractionInfo) (n : String) :
    n ∈ keysOf (graphInit inters) ↔ n ∈ inters.map (·.action) := by
  unfold graphInit
  rw [mem_keysOf_fold_insert]
  simp [keysOf]

theorem graphPush_lookupAdj (g : Graph) (k v u : String) :
    lookupAdj (graphPush g k v) u =
      if u = k then lookupAdj g u ++ [v] else lookupAdj g u := by
  induction g with
  | nil =>
    by_cases h : u = k
    · subst h
      simp [graphPush, lookupAdj, mapLookup]
    · simp [graphPush, lookupAdj, mapLookup, Ne.symm h, h]
  | cons kv rest ih =>
    obtain ⟨k', vs⟩ := kv
    by_cases hk : k' = k
    · subst hk
      by_cases hu : u = k'
      · subst hu
        simp [graphPush, lookupAdj, mapLookup]
      · simp [graphPush, lookupAdj, mapLookup, Ne.symm hu, hu]
    · by_cases hu : u = k'
      · subst hu
        simp [graphPush, hk, lookupAdj, mapLookup]
      · simp only [graphPush, if_neg hk]
        unfold lookupAdj at ih ⊢
        simp [mapLookup, Ne.symm hu, hu, ih]

theorem graphPush_keys_mem (g : Graph) (k v : String)
    (hk : k ∈ keysOf g) : keysOf (graphPush g k v) = keysOf g := by
  induction g with
  | nil => exact absurd hk (by simp [keysOf])
  | cons kv rest ih =>
    obtain ⟨k', vs⟩ := kv
    by_cases h : k' = k
    · subst h
      simp [graphPush, keysOf]
    · have hk' : k ∈ keysOf rest := by
        simp only [keysOf, List.map_cons, List.mem_cons] at hk
        rcases hk with h1 | h1
        · exact absurd h1.symm h
        · exact h1
      simp only [graphPush, if_neg h]
      simp only [keysOf, List.map_cons]
      rw [show keysOf (graphPush rest k v) =
        (graphPush rest k v).map (·.1) from rfl] at ih
      rw [ih hk']
      rfl

theorem buildPrecedence_inv (pinfo : PMap) (inters : List InteractionInfo)
    (hps : producersFrom pinfo (inters.map (·.action))) :
    keysOf (buildPrecedence pinfo inters) = keysOf (graphInit inters) ∧
      ∀ u w, w ∈ lookupAdj (buildPrecedence pinfo inters) u →
        w ∈ inters.map (·.action) := by
  unfold buildPrecedence
  apply foldl_preserves (fun g => keysOf g = keysOf (graphInit inters) ∧
    ∀ u w, w ∈ lookupAdj g u → w ∈ inters.map (·.action))
  · exact ⟨rfl, fun u w hw => by
      rw [graphInit_lookupAdj] at hw
      exact absurd hw (List.not_mem_nil w)⟩
  · intro g i hi hg
    apply foldl_preserves (fun g => keysOf g = keysOf (graphInit inters) ∧
      ∀ u w, w ∈ lookupAdj g u → w ∈ inters.map (·.action))
    · exact hg
    · intro g' fl _ hg'
      by_cases hdir : fl.direction = "in"
      · rw [if_pos hdir]
        cases hl : mapLookup pinfo fl.parameter with
        | none => exact hg'
        | some info =>
          apply foldl_preserves (fun g => keysOf g = keysOf (graphInit inters)
            ∧ ∀ u w, w ∈ lookupAdj g u → w ∈ inters.map (·.action))
          · exact hg'
          · intro g'' producer hprod hg''
            by_cases hcond : producer ≠ i.action &&
                !is_parallel_branch_relationship producer i.action
                  inters pinfo
            · rw [if_pos hcond]
              have hpa : producer ∈ inters.map (·.action) :=
                hps (fl.parameter, info) (lookup_mem _ _ _ hl) producer hprod
              have hpk : producer ∈ keysOf g'' := by
                rw [hg''.1, mem_graphInit_keys]
                exact hpa
              refine ⟨?_, ?_⟩
              · rw [graphPush_keys_mem g'' producer i.action hpk]
                exact hg''.1
              · intro u w hw
                rw [graphPush_lookupAdj] at hw
                by_cases hu : u = producer
                · rw [if_pos hu] at hw
                  rcases List.mem_append.mp hw with h1 | h1
                  · exact hg''.2 u w h1
                  · rw [List.mem_singleton.mp h1]
                    exact List.mem_map_of_mem (·.action) hi
                · rw [if_neg hu] at hw
                  exact hg''.2 u w hw
            · rw [if_neg hcond]
              exact hg''
      · rw [if_neg hdir]
        exact hg'


/-! ### The inner successor loop of Kahn's algorithm -/

theorem kahn_step_fold (g : Graph) (hndg : (keysOf g).Nodup)
    (hsucc : ∀ u w, w ∈ lookupAdj g u → w ∈ keysOf g)
    (c : String) (ordered : List String)
    (hcO : c ∉ ordered) (hc0 : inCount g c ordered = 0)
    (hOzero : ∀ s ∈ ordered, inCount g s ordered = 0) :
    ∀ (rest pr : List String) (deg : List (String × Nat)) (q : List String),
      lookupAdj g c = pr ++ rest →
      keysOf deg = keysOf g →
      q.Nodup →
      (∀ x ∈ q, x ∈ keysOf g ∧ x ∉ ordered ∧ x ≠ c) →
      (∀ n, n ∈ keysOf g → n ∉ ordered → n ≠ c →
        mapLookup deg n = some (inCount g n ordered - pr.count n) ∧
        (n ∈ q ↔ inCount g n ordered - pr.count n = 0)) →
      keysOf (rest.foldl kahnDec (deg, q)).1 = keysOf g ∧
      (rest.foldl kahnDec (deg, q)).2.Nodup ∧
      (∀ x ∈ (rest.foldl kahnDec (deg, q)).2,
        x ∈ keysOf g ∧ x ∉ ordered ∧ x ≠ c) ∧
      (∀ n, n ∈ keysOf g → n ∉ ordered → n ≠ c →
        mapLookup (rest.foldl kahnDec (deg, q)).1 n =
          some (inCount g n ordered - (pr ++ rest).count n) ∧
        (n ∈ (rest.foldl kahnDec (deg, q)).2 ↔
          inCount g n ordered - (pr ++ rest).count n = 0)) := by
  intro rest
  induction rest with
  | nil =>
    intro pr deg q hA hK hQnd hQmem hInv
    simp only [List.foldl_nil, List.append_nil]
    exact ⟨hK, hQnd, hQmem, hInv⟩
  | cons s rest' ih =>
    intro pr deg q hA hK hQnd hQmem hInv
    have hsA : s ∈ lookupAdj g c := by
      rw [hA]
      exact List.mem_append.mpr (Or.inr (List.mem_cons_self _ _))
    have hsK : s ∈ keysOf g := hsucc c s hsA
    have hedge : (c, s) ∈ edgesOf g :=
      (mem_lookupAdj_iff_edge g hndg c s).mp hsA
    have hsO : s ∉ ordered := fun hmem =>
      inCount_pos_of_edge g c s ordered hedge hcO (hOzero s hmem)
    have hsc : s ≠ c := by
      intro h
      rw [h] at hedge
      exact inCount_pos_of_edge g c c ordered hedge hcO hc0
    have hsplit : inCount g s ordered =
        (lookupAdj g c).count s + inCount g s (ordered ++ [c]) :=
      inCount_adj_split g hndg s c ordered hcO
    have hcnt : pr.count s + 1 ≤ (lookupAdj g c).count s := by
      rw [hA, List.count_append, List.count_cons_self]
      omega
    have hval : inCount g s ordered - pr.count s ≠ 0 := by omega
    have hsq : s ∉ q := fun hmem =>
      hval (((hInv s hsK hsO hsc).2).mp hmem)
    obtain ⟨hlook, -⟩ := hInv s hsK hsO hsc
    have hsDeg : s ∈ keysOf deg := by
      rw [hK]
      exact hsK
    have hdec : kahnDec (deg, q) s =
        (mapInsert deg s (inCount g s ordered - pr.count s - 1),
          if inCount g s ordered - pr.count s - 1 = 0 then s :: q else q) := by
      show (match mapLookup deg s with
        | some d =>
          if d - 1 = 0 then (mapInsert deg s (d - 1), s :: q)
          else (mapInsert deg s (d - 1), q)
        | none => (deg, q)) = _
      rw [hlook]
      by_cases hz : inCount g s ordered - pr.count s - 1 = 0
      · simp [hz]
      · simp [hz]
    rw [List.foldl_cons, hdec]
    have hgoalcnt : ∀ n, (pr ++ s :: rest').count n =
        ((pr ++ [s]) ++ rest').count n := by
      intro n
      rw [List.append_assoc]
      rfl
    have hA' : lookupAdj g c = (pr ++ [s]) ++ rest' := by
      rw [hA, List.append_assoc]
      rfl
    have hK' : keysOf (mapInsert deg s
        (inCount g s ordered - pr.count s - 1)) = keysOf g := by
      rw [keysOf_insert_mem deg s _ hsDeg]
      exact hK
    have hQnd' : (if inCount g s ordered - pr.count s - 1 = 0
        then s :: q else q).Nodup := by
      by_cases hz : inCount g s ordered - pr.count s - 1 = 0
      · rw [if_pos hz]
        exact List.nodup_cons.mpr ⟨hsq, hQnd⟩
      · rw [if_neg hz]
        exact hQnd
    have hQmem' : ∀ x ∈ (if inCount g s ordered - pr.count s - 1 = 0
        then s :: q else q), x ∈ keysOf g ∧ x ∉ ordered ∧ x ≠ c := by
      intro x hx
      by_cases hz : inCount g s ordered - pr.count s - 1 = 0
      · rw [if_pos hz] at hx
        rcases List.mem_cons.mp hx with rfl | hx
        · exact ⟨hsK, hsO, hsc⟩
        · exact hQmem x hx
      · rw [if_neg hz] at hx
        exact hQmem x hx
    have hInv' : ∀ n, n ∈ keysOf g → n ∉ ordered → n ≠ c →
        mapLookup (mapInsert deg s
            (inCount g s ordered - pr.count s - 1)) n =
          some (inCount g n ordered - (pr ++ [s]).count n) ∧
        (n ∈ (if inCount g s ordered - pr.count s - 1 = 0
            then s :: q else q) ↔
          inCount g n ordered - (pr ++ [s]).count n = 0) := by
      intro n hnK hnO hnc
      by_cases hns : n = s
      · subst hns
        have hcnt2 : (pr ++ [n]).count n = pr.count n + 1 := by
          rw [List.count_append, List.count_cons_self]
          rfl
        constructor
        · rw [mapLookup_insert_self, hcnt2, Nat.sub_sub]
        · rw [hcnt2, ← Nat.sub_sub]
          by_cases hz : inCount g n ordered - pr.count n - 1 = 0
          · rw [if_pos hz]
            exact ⟨fun _ => hz, fun _ => List.mem_cons_self n q⟩
          · rw [if_neg hz]
            exact ⟨fun hmem => absurd hmem hsq, fun hmem => absurd hmem hz⟩
      · have hcnt2 : (pr ++ [s]).count n = pr.count n := by
          rw [List.count_append]
          simp [List.count_cons, hns]
        obtain ⟨hl, hiff⟩ := hInv n hnK hnO hnc
        constructor
        · rw [mapLookup_insert_ne deg s n _ hns, hcnt2]
          exact hl
        · rw [hcnt2]
          by_cases hz : inCount g s ordered - pr.count s - 1 = 0
          · rw [if_pos hz]
            constructor
            · intro hmem
              rcases List.mem_cons.mp hmem with h1 | h1
              · exact absurd h1 hns
              · exact hiff.mp h1
            · intro hv
              exact List.mem_cons_of_mem s (hiff.mpr hv)
          · rw [if_neg hz]
            exact hiff
    have hres := ih (pr ++ [s])
      (mapInsert deg s (inCount g s ordered - pr.count s - 1))
      (if inCount g s ordered - pr.count s - 1 = 0 then s :: q else q)
      hA' hK' hQnd' hQmem' hInv'
    refine ⟨hres.1, hres.2.1, hres.2.2.1, ?_⟩
    intro n hnK hnO hnc
    obtain ⟨hl, hiff⟩ := hres.2.2.2 n hnK hnO hnc
    rw [hgoalcnt n]
    exact ⟨hl, hiff⟩


theorem nodup_subset_length (l l2 : List String) (hnd : l.Nodup)
    (hsub : ∀ x ∈ l, x ∈ l2) : l.length ≤ l2.length := by
  have h1 : l.toFinset.card = l.length := List.toFinset_card_of_nodup hnd
  have h2 : l.toFinset ⊆ l2.toFinset := by
    intro x hx
    rw [List.mem_toFinset] at hx ⊢
    exact hsub x hx
  have h3 := Finset.card_le_card h2
  have h4 : l2.toFinset.card ≤ l2.length := l2.toFinset_card_le
  omega

/-- The outer `while let Some(current) = queue.pop()` loop of Kahn's
algorithm preserves its invariant; with enough fuel it ends with every
unemitted node still having an unemitted predecessor. -/
theorem kahnLoop_spec (g : Graph) (hndg : (keysOf g).Nodup)
    (hsucc : ∀ u w, w ∈ lookupAdj g u → w ∈ keysOf g) :
    ∀ (fuel : Nat) (deg : List (String × Nat)) (rq ordered : List String),
      keysOf deg = keysOf g →
      ordered.Nodup →
      rq.Nodup →
      (∀ x ∈ ordered, x ∈ keysOf g) →
      (∀ x ∈ rq, x ∈ keysOf g ∧ x ∉ ordered) →
      (∀ n, n ∈ keysOf g → n ∉ ordered →
        mapLookup deg n = some (inCount g n ordered) ∧
        (n ∈ rq ↔ inCount g n ordered = 0)) →
      (∀ s ∈ ordered, inCount g s ordered = 0) →
      (keysOf g).length + 1 ≤ fuel + ordered.length →
      (kahnLoop g fuel deg rq ordered).Nodup ∧
      (∀ x ∈ kahnLoop g fuel deg rq ordered, x ∈ keysOf g) ∧
      (∀ x ∈ ordered, x ∈ kahnLoop g fuel deg rq ordered) ∧
      (∀ n, n ∈ keysOf g → n ∉ kahnLoop g fuel deg rq ordered →
        inCount g n (kahnLoop g fuel deg rq ordered) ≠ 0) := by
  intro fuel
  induction fuel with
  | zero =>
    intro deg rq ordered hK hOnd hQnd hOsub hQmem hInv hOzero hfuel
    exact absurd (nodup_subset_length ordered (keysOf g) hOnd hOsub)
      (by omega)
  | succ fuel ih =>
    intro deg rq ordered hK hOnd hQnd hOsub hQmem hInv hOzero hfuel
    cases rq with
    | nil =>
      have hfinal : kahnLoop g (fuel + 1) deg [] ordered = ordered := rfl
      rw [hfinal]
      refine ⟨hOnd, hOsub, fun x hx => hx, ?_⟩
      intro n hnK hnO
      intro hzero
      exact (List.not_mem_nil n) (((hInv n hnK hnO).2).mpr hzero)
    | cons current rq0 =>
      have hcK : current ∈ keysOf g :=
        (hQmem current (List.mem_cons_self _ _)).1
      have hcO : current ∉ ordered :=
        (hQmem current (List.mem_cons_self _ _)).2
      have hc0 : inCount g current ordered = 0 :=
        ((hInv current hcK hcO).2).mp (List.mem_cons_self _ _)
      have hcq0 : current ∉ rq0 := (List.nodup_cons.mp hQnd).1
      have hq0nd : rq0.Nodup := (List.nodup_cons.mp hQnd).2
      have hstep := kahn_step_fold g hndg hsucc current ordered hcO hc0
        hOzero (lookupAdj g current) [] deg rq0 rfl hK hq0nd
        (fun x hx => ⟨(hQmem x (List.mem_cons_of_mem _ hx)).1,
          (hQmem x (List.mem_cons_of_mem _ hx)).2,
          fun hxc => hcq0 (hxc ▸ hx)⟩)
        (fun n hnK hnO hnc => by
          obtain ⟨hl, hiff⟩ := hInv n hnK hnO
          refine ⟨by simpa using hl, ?_⟩
          simp only [List.count_nil, Nat.sub_zero]
          rw [← hiff]
          exact ⟨fun hmem => List.mem_cons_of_mem _ hmem,
            fun hmem => (List.mem_cons.mp hmem).resolve_left hnc⟩)
      set st := (lookupAdj g current).foldl kahnDec (deg, rq0) with hst
      obtain ⟨hK', hQnd', hQmem', hInv'⟩ := hstep
      have hloop : kahnLoop g (fuel + 1) deg (current :: rq0) ordered =
          kahnLoop g fuel st.1 st.2 (ordered ++ [current]) := rfl
      rw [hloop]
      have hOnd' : (ordered ++ [current]).Nodup := by
        rw [List.nodup_append]
        exact ⟨hOnd, List.nodup_singleton current,
          fun x hx hmem => hcO ((List.mem_singleton.mp hmem) ▸ hx)⟩
      have hOsub' : ∀ x ∈ ordered ++ [current], x ∈ keysOf g := by
        intro x hx
        rcases List.mem_append.mp hx with h1 | h1
        · exact hOsub x h1
        · rw [List.mem_singleton.mp h1]
          exact hcK
      have hnotmem : ∀ n, n ∉ ordered ++ [current] →
          n ∉ ordered ∧ n ≠ current := by
        intro n hn
        constructor
        · intro h1
          exact hn (List.mem_append.mpr (Or.inl h1))
        · intro h1
          exact hn (List.mem_append.mpr (Or.inr (List.mem_singleton.mpr h1)))
      have hQmem2 : ∀ x ∈ st.2, x ∈ keysOf g ∧ x ∉ ordered ++ [current] := by
        intro x hx
        obtain ⟨h1, h2, h3⟩ := hQmem' x hx
        refine ⟨h1, ?_⟩
        intro hmem
        rcases List.mem_append.mp hmem with h4 | h4
        · exact h2 h4
        · exact h3 (List.mem_singleton.mp h4)
      have hInv2 : ∀ n, n ∈ keysOf g → n ∉ ordered ++ [current] →
          mapLookup st.1 n = some (inCount g n (ordered ++ [current])) ∧
          (n ∈ st.2 ↔ inCount g n (ordered ++ [current]) = 0) := by
        intro n hnK hnO'
        obtain ⟨hnO, hnc⟩ := hnotmem n hnO'
        obtain ⟨hl, hiff⟩ := hInv' n hnK hnO hnc
        have hsplit : inCount g n ordered =
            (lookupAdj g current).count n +
              inCount g n (ordered ++ [current]) :=
          inCount_adj_split g hndg n current ordered hcO
        have hcnteq : inCount g n ordered -
            ([] ++ lookupAdj g current).count n =
            inCount g n (ordered ++ [current]) := by
          simp only [List.nil_append]
          omega
        rw [hcnteq] at hl hiff
        exact ⟨hl, hiff⟩
      have hOzero' : ∀ s ∈ ordered ++ [current],
          inCount g s (ordered ++ [current]) = 0 := by
        intro s hs
        rcases List.mem_append.mp hs with h1 | h1
        · exact inCount_zero_mono g s ordered (ordered ++ [current])
            (fun x hx => List.mem_append.mpr (Or.inl hx)) (hOzero s h1)
        · rw [List.mem_singleton.mp h1]
          exact inCount_zero_mono g current ordered (ordered ++ [current])
            (fun x hx => List.mem_append.mpr (Or.inl hx)) hc0
      have hfuel' : (keysOf g).length + 1 ≤
          fuel + (ordered ++ [current]).length := by
        rw [List.length_append, List.length_singleton]
        omega
      obtain ⟨h1, h2, h3, h4⟩ := ih st.1 st.2 (ordered ++ [current])
        hK' hOnd' hQnd' hOsub' hQmem2 hInv2 hOzero' hfuel'
      refine ⟨h1, h2, ?_, h4⟩
      intro x hx
      exact h3 x (List.mem_append.mpr (Or.inl hx))


theorem bumpDeg_keys (d : List (String × Nat)) (s : String) :
    keysOf (bumpDeg d s) = keysOf d := by
  induction d with
  | nil => rfl
  | cons kv rest ih =>
    obtain ⟨k, m⟩ := kv
    by_cases h : k = s
    · simp [bumpDeg, h, keysOf]
    · simp only [bumpDeg, if_neg h]
      simp only [keysOf, List.map_cons] at ih ⊢
      rw [ih]

theorem degreesOf_keys (g : Graph) (inters : List InteractionInfo) :
    keysOf (degreesOf g inters) = keysOf (degreeInit inters) := by
  unfold degreesOf
  apply foldl_preserves (fun d => keysOf d = keysOf (degreeInit inters))
  · rfl
  · intro d kv _ hd
    apply foldl_preserves (fun d => keysOf d = keysOf (degreeInit inters))
    · exact hd
    · intro d' s _ hd'
      rw [bumpDeg_keys, hd']

theorem inCount_nil (g : Graph) (n : String) :
    inCount g n [] = (edgesOf g).countP (fun e => decide (e.2 = n)) := by
  unfold inCount
  apply List.countP_congr
  intro e _
  simp

theorem degreesOf_lookup (g : Graph) (inters : List InteractionInfo)
    (n : String) (hn : n ∈ inters.map (·.action)) :
    mapLookup (degreesOf g inters) n = some (inCount g n []) := by
  unfold degreesOf
  rw [degrees_fold, degreeInit_lookup, if_pos hn]
  simp [inCount_nil]

/-- Kahn's algorithm as invoked by `validate_causality`: the emitted order
is duplicate-free, its members are graph nodes, and every node left out
keeps an in-edge from another left-out node. -/
theorem kahnRun_spec (g : Graph) (inters : List InteractionInfo)
    (hndg : (keysOf g).Nodup)
    (hkeys : keysOf g = keysOf (degreeInit inters))
    (hsucc : ∀ u w, w ∈ lookupAdj g u → w ∈ keysOf g) :
    (kahnRun g inters).Nodup ∧
    (∀ x ∈ kahnRun g inters, x ∈ keysOf g) ∧
    (∀ n, n ∈ keysOf g → n ∉ kahnRun g inters →
      inCount g n (kahnRun g inters) ≠ 0) := by
  have hKdeg : keysOf (degreesOf g inters) = keysOf g := by
    rw [degreesOf_keys, ← hkeys]
  have hndDeg : (keysOf (degreesOf g inters)).Nodup := by
    rw [hKdeg]
    exact hndg
  have hlookdeg : ∀ n, n ∈ keysOf g →
      mapLookup (degreesOf g inters) n = some (inCount g n []) := by
    intro n hn
    apply degreesOf_lookup
    rw [hkeys, mem_degreeInit_keys] at hn
    exact hn
  have hq0iff : ∀ n,
      (n ∈ (((degreesOf g inters).filter
        (fun kv => kv.2 = 0)).map (·.1)).reverse) ↔
      n ∈ keysOf g ∧ inCount g n [] = 0 := by
    intro n
    rw [List.mem_reverse, List.mem_map]
    constructor
    · rintro ⟨kv, hkv, hfst⟩
      obtain ⟨hmem, hp⟩ := List.mem_filter.mp hkv
      have h0 : kv.2 = 0 := by simpa using hp
      have hK2 : kv.1 ∈ keysOf g := by
        rw [← hKdeg]
        exact List.mem_map_of_mem (·.1) hmem
      have hpair : (kv.1, kv.2) ∈ degreesOf g inters := by
        rw [Prod.mk.eta]
        exact hmem
      have hlk := lookup_of_mem_nodup (degreesOf g inters) hndDeg
        kv.1 kv.2 hpair
      have hlk2 := hlookdeg kv.1 hK2
      have hv : kv.2 = inCount g kv.1 [] :=
        Option.some.inj (hlk.symm.trans hlk2)
      subst hfst
      exact ⟨hK2, by omega⟩
    · rintro ⟨hnK, hn0⟩
      have hlk := hlookdeg n hnK
      rw [hn0] at hlk
      have hmem : (n, 0) ∈ degreesOf g inters :=
        lookup_mem (degreesOf g inters) n 0 hlk
      exact ⟨(n, 0), List.mem_filter.mpr ⟨hmem, by simp⟩, rfl⟩
  have hq0nd : ((((degreesOf g inters).filter
      (fun kv => kv.2 = 0)).map (·.1)).reverse).Nodup := by
    rw [List.nodup_reverse]
    exact List.Nodup.sublist
      ((List.filter_sublist (degreesOf g inters)).map (·.1)) hndDeg
  have hlen : (keysOf g).length = (degreesOf g inters).length := by
    rw [← hKdeg]
    exact (List.length_map _ _)
  have hmain := kahnLoop_spec g hndg hsucc
    ((degreesOf g inters).length + 1) (degreesOf g inters)
    ((((degreesOf g inters).filter (fun kv => kv.2 = 0)).map (·.1)).reverse)
    [] hKdeg List.nodup_nil hq0nd
    (fun x hx => absurd hx (List.not_mem_nil x))
    (fun x hx => ⟨((hq0iff x).mp hx).1, List.not_mem_nil x⟩)
    (fun n hnK _ => ⟨hlookdeg n hnK, by
      rw [hq0iff n]
      exact ⟨fun h => h.2, fun h => ⟨hnK, h⟩⟩⟩)
    (fun s hs => absurd hs (List.not_mem_nil s))
    (by omega)
  have heq : kahnRun g inters = kahnLoop g
      ((degreesOf g inters).length + 1) (degreesOf g inters)
      ((((degreesOf g inters).filter (fun kv => kv.2 = 0)).map
        (·.1)).reverse) [] := rfl
  rw [heq]
  exact ⟨hmain.1, hmain.2.1, hmain.2.2.2⟩


/-! ### Existence of a genuine cycle among stuck nodes -/

theorem chain_tail (g : Graph) (a : String) (t : List String)
    (h : isChain g (a :: t)) : isChain g t := by
  cases t with
  | nil => trivial
  | cons b t' => exact h.2

theorem chain_prefix (g : Graph) :
    ∀ (l1 l2 : List String), isChain g (l1 ++ l2) → isChain g l1 := by
  intro l1
  induction l1 with
  | nil => intro l2 _; trivial
  | cons x l1' ih =>
    intro l2 h
    cases l1' with
    | nil => trivial
    | cons y rest =>
      rw [List.cons_append, List.cons_append] at h
      exact ⟨h.1, ih l2 (by rw [List.cons_append]; exact h.2)⟩

theorem chain_suffix (g : Graph) :
    ∀ (l1 l2 : List String), isChain g (l1 ++ l2) → isChain g l2 := by
  intro l1
  induction l1 with
  | nil => intro l2 h; exact h
  | cons x l1' ih =>
    intro l2 h
    rw [List.cons_append] at h
    exact ih l2 (chain_tail g x (l1' ++ l2) h)

theorem dup_decomp (l : List String) (h : ¬ l.Nodup) :
    ∃ a l1 l2 l3, l = l1 ++ a :: (l2 ++ a :: l3) := by
  induction l with
  | nil => exact absurd List.nodup_nil h
  | cons x xs ih =>
    by_cases hx : x ∈ xs
    · obtain ⟨s, t, hst⟩ := List.append_of_mem hx
      exact ⟨x, [], s, t, by rw [hst]; rfl⟩
    · have hxs : ¬ xs.Nodup := by
        intro hnd
        exact h (List.nodup_cons.mpr ⟨hx, hnd⟩)
      obtain ⟨a, l1, l2, l3, hdec⟩ := ih hxs
      exact ⟨a, x :: l1, l2, l3, by rw [hdec]; rfl⟩

theorem chain_extend (g : Graph) (hndg : (keysOf g).Nodup)
    (S : List String)
    (hpred : ∀ n ∈ S, ∃ u, (u, n) ∈ edgesOf g ∧ u ∈ S) :
    ∀ (k : Nat) (n : String), n ∈ S →
      ∃ l : List String, l.length = k ∧ isChain g (l ++ [n]) ∧
        (∀ x ∈ l ++ [n], x ∈ S) := by
  intro k
  induction k with
  | zero =>
    intro n hn
    refine ⟨[], rfl, trivial, ?_⟩
    intro x hx
    rw [List.nil_append, List.mem_singleton] at hx
    rw [hx]
    exact hn
  | succ k ih =>
    intro n hn
    obtain ⟨l, hlen, hchain, hmem⟩ := ih n hn
    cases l with
    | nil =>
      obtain ⟨u, hedge, hu⟩ := hpred n hn
      refine ⟨[u], by rw [← hlen]; rfl, ?_, ?_⟩
      · exact ⟨(mem_lookupAdj_iff_edge g hndg u n).mpr hedge, trivial⟩
      · intro x hx
        rcases List.mem_cons.mp hx with rfl | hx
        · exact hu
        · rw [List.mem_singleton.mp hx]
          exact hn
    | cons h0 l' =>
      have hh0 : h0 ∈ S := hmem h0 (List.mem_cons_self _ _)
      obtain ⟨u, hedge, hu⟩ := hpred h0 hh0
      refine ⟨u :: h0 :: l', by simpa using hlen, ?_, ?_⟩
      · rw [List.cons_append, List.cons_append]
        refine ⟨(mem_lookupAdj_iff_edge g hndg u h0).mpr hedge, ?_⟩
        rw [List.cons_append] at hchain
        exact hchain
      · intro x hx
        rcases List.mem_cons.mp hx with rfl | hx
        · exact hu
        · exact hmem x hx

theorem exists_cycle_of_pred (g : Graph) (hndg : (keysOf g).Nodup)
    (S : List String) (hne : S ≠ [])
    (hpred : ∀ n ∈ S, ∃ u, (u, n) ∈ edgesOf g ∧ u ∈ S) :
    ∃ c, isCycleList g c ∧ ∀ x ∈ c, x ∈ S := by
  obtain ⟨n0, S', rfl⟩ := List.exists_cons_of_ne_nil hne
  have hn0 : n0 ∈ n0 :: S' := List.mem_cons_self _ _
  obtain ⟨l, hlen, hchain, hmem⟩ :=
    chain_extend g hndg (n0 :: S') hpred ((n0 :: S').length + 1) n0 hn0
  have hLlen : (l ++ [n0]).length = (n0 :: S').length + 2 := by
    rw [List.length_append, hlen]
    rfl
  have hnotnd : ¬ (l ++ [n0]).Nodup := by
    intro hnd
    have := nodup_subset_length (l ++ [n0]) (n0 :: S') hnd hmem
    omega
  obtain ⟨a, l1, l2, l3, hdec⟩ := dup_decomp (l ++ [n0]) hnotnd
  refine ⟨a :: l2 ++ [a], ?_, ?_⟩
  · refine ⟨by simp, ?_, ?_⟩
    · rw [show a :: l2 ++ [a] = (a :: l2) ++ [a] from rfl,
        List.getLast?_concat]
      rfl
    · have hsfx : isChain g (a :: (l2 ++ a :: l3)) :=
        chain_suffix g l1 _ (by rw [← hdec]; exact hchain)
      have hre : a :: (l2 ++ a :: l3) = (a :: l2 ++ [a]) ++ l3 := by
        simp
      rw [hre] at hsfx
      exact chain_prefix g _ l3 hsfx
  · intro x hx
    apply hmem
    rw [hdec]
    rcases List.mem_cons.mp hx with rfl | hx
    · exact List.mem_append.mpr (Or.inr (List.mem_cons_self _ _))
    · rcases List.mem_append.mp hx with h1 | h1
      · exact List.mem_append.mpr (Or.inr (List.mem_cons_of_mem _
          (List.mem_append.mpr (Or.inl h1))))
      · rw [List.mem_singleton.mp h1]
        exact List.mem_append.mpr (Or.inr (List.mem_cons_self _ _))


/-! ### Soundness of the depth-first cycle search -/

theorem chain_snoc_last (g : Graph) (b : String) :
    ∀ (l : List String) (a : String), isChain g l → l.getLast? = some a →
      b ∈ lookupAdj g a → isChain g (l ++ [b]) := by
  intro l
  induction l with
  | nil =>
    intro a _ hlast
    exact absurd hlast (by simp)
  | cons x rest ih =>
    intro a hchain hlast hb
    cases rest with
    | nil =>
      obtain rfl : x = a := by simpa using hlast
      exact ⟨hb, trivial⟩
    | cons y rest' =>
      have hlast' : (y :: rest').getLast? = some a := by
        rw [← hlast]
        exact List.getLast?_cons_cons.symm
      exact ⟨hchain.1, ih a hchain.2 hlast' hb⟩

theorem chain_snoc (g : Graph) (l : List String) (a b : String)
    (h : isChain g (l ++ [a])) (hb : b ∈ lookupAdj g a) :
    isChain g ((l ++ [a]) ++ [b]) :=
  chain_snoc_last g b (l ++ [a]) a h (List.getLast?_concat l) hb

theorem dropBefore_decomp (x : String) :
    ∀ l : List String, ∃ l1, l = l1 ++ dropBefore x l := by
  intro l
  induction l with
  | nil => exact ⟨[], rfl⟩
  | cons a rest ih =>
    by_cases h : a = x
    · exact ⟨[], by rw [dropBefore, if_pos h]; rfl⟩
    · obtain ⟨l1, hl1⟩ := ih
      refine ⟨a :: l1, ?_⟩
      rw [dropBefore, if_neg h, List.cons_append, ← hl1]

theorem dropBefore_head (x : String) :
    ∀ l : List String, x ∈ l → (dropBefore x l).head? = some x := by
  intro l
  induction l with
  | nil => intro h; exact absurd h (List.not_mem_nil x)
  | cons a rest ih =>
    intro h
    by_cases ha : a = x
    · rw [dropBefore, if_pos ha, List.head?_cons, ha]
    · rw [dropBefore, if_neg ha]
      exact ih ((List.mem_cons.mp h).resolve_left (fun he => ha he.symm))

theorem found_cycle_valid (g : Graph) (node : String) (path : List String)
    (hmem : node ∈ path) (hchain : isChain g (path ++ [node])) :
    isCycleList g (dropBefore node path ++ [node]) := by
  have hhead := dropBefore_head node path hmem
  obtain ⟨d, ds, hd⟩ : ∃ d ds, dropBefore node path = d :: ds := by
    cases hdb : dropBefore node path with
    | nil => rw [hdb] at hhead; exact absurd hhead (by simp)
    | cons d ds => exact ⟨d, ds, rfl⟩
  have hdnode : d = node := by
    rw [hd] at hhead
    simpa using hhead
  obtain ⟨l1, hl1⟩ := dropBefore_decomp node path
  refine ⟨?_, ?_, ?_⟩
  · rw [hd]
    simp
  · rw [hd, hdnode]
    rw [show node :: ds ++ [node] = (node :: ds) ++ [node] from rfl,
      List.getLast?_concat]
    rfl
  · have h2 : path ++ [node] = l1 ++ (dropBefore node path ++ [node]) := by
      conv_lhs => rw [hl1]
      rw [List.append_assoc]
    exact chain_suffix g l1 _ (by rw [← h2]; exact hchain)

theorem dfs_spec (g : Graph) :
    ∀ fuel : Nat,
      (∀ node visited path, isChain g (path ++ [node]) →
        (∀ cyc, (dfsNode g fuel node visited path).2.2 = some cyc →
          isCycleList g cyc) ∧
        ((dfsNode g fuel node visited path).2.2 = none →
          (dfsNode g fuel node visited path).2.1 = path)) ∧
      (∀ kids visited path, (∀ s ∈ kids, isChain g (path ++ [s])) →
        (∀ cyc, (dfsKids g fuel kids visited path).2.2 = some cyc →
          isCycleList g cyc) ∧
        ((dfsKids g fuel kids visited path).2.2 = none →
          (dfsKids g fuel kids visited path).2.1 = path)) := by
  have hQgen : ∀ fuel : Nat,
      (∀ node visited path, isChain g (path ++ [node]) →
        (∀ cyc, (dfsNode g fuel node visited path).2.2 = some cyc →
          isCycleList g cyc) ∧
        ((dfsNode g fuel node visited path).2.2 = none →
          (dfsNode g fuel node visited path).2.1 = path)) →
      ∀ kids visited path, (∀ s ∈ kids, isChain g (path ++ [s])) →
        (∀ cyc, (dfsKids g fuel kids visited path).2.2 = some cyc →
          isCycleList g cyc) ∧
        ((dfsKids g fuel kids visited path).2.2 = none →
          (dfsKids g fuel kids visited path).2.1 = path) := by
    intro fuel hP kids
    induction kids with
    | nil =>
      intro visited path _
      rw [dfsKids]
      exact ⟨fun cyc h => Option.noConfusion h, fun _ => rfl⟩
    | cons s ss ih =>
      intro visited path hkids
      have hs := hP s visited path (hkids s (List.mem_cons_self _ _))
      rw [dfsKids]
      cases hd : dfsNode g fuel s visited path with
      | mk v1 rest1 =>
        obtain ⟨p1, oc⟩ := rest1
        cases oc with
        | some c =>
          refine ⟨fun cyc hcyc => ?_, fun hnone => ?_⟩
          · exact hs.1 cyc (by rw [hd]; exact hcyc)
          · exact absurd hnone (by simp)
        | none =>
          have hp1 : p1 = path := by
            have := hs.2 (by rw [hd])
            rw [hd] at this
            exact this
          simp only
          subst hp1
          exact ih v1 p1 (fun s' hs' => hkids s' (List.mem_cons_of_mem _ hs'))
  intro fuel
  induction fuel with
  | zero =>
    constructor
    · intro node visited path _
      rw [dfsNode]
      exact ⟨fun cyc h => Option.noConfusion h, fun _ => rfl⟩
    · apply hQgen
      intro node visited path _
      rw [dfsNode]
      exact ⟨fun cyc h => Option.noConfusion h, fun _ => rfl⟩
  | succ fuel ih =>
    have hP : ∀ node visited path, isChain g (path ++ [node]) →
        (∀ cyc, (dfsNode g (fuel + 1) node visited path).2.2 = some cyc →
          isCycleList g cyc) ∧
        ((dfsNode g (fuel + 1) node visited path).2.2 = none →
          (dfsNode g (fuel + 1) node visited path).2.1 = path) := by
      intro node visited path hchain
      rw [dfsNode]
      by_cases hmem : node ∈ path
      · rw [if_pos hmem]
        refine ⟨fun cyc hcyc => ?_, fun hnone => absurd hnone (by simp)⟩
        have hce : dropBefore node path ++ [node] = cyc :=
          Option.some.inj hcyc
        rw [← hce]
        exact found_cycle_valid g node path hmem hchain
      · rw [if_neg hmem]
        by_cases hvis : node ∈ visited
        · rw [if_pos hvis]
          exact ⟨fun cyc h => Option.noConfusion h, fun _ => rfl⟩
        · rw [if_neg hvis]
          have hkids : ∀ s ∈ (mapLookup g node).getD [],
              isChain g ((path ++ [node]) ++ [s]) := by
            intro s hs
            exact chain_snoc g path node s hchain hs
          have hQ := hQgen fuel ih.1 ((mapLookup g node).getD [])
            (visited ++ [node]) (path ++ [node]) hkids
          cases hd : dfsKids g fuel ((mapLookup g node).getD [])
              (visited ++ [node]) (path ++ [node]) with
          | mk v1 rest1 =>
            obtain ⟨p1, oc⟩ := rest1
            cases oc with
            | some c =>
              refine ⟨fun cyc hcyc => ?_, fun hnone => ?_⟩
              · exact hQ.1 cyc (by rw [hd]; exact hcyc)
              · exact absurd hnone (by simp)
            | none =>
              have hp1 : p1 = path ++ [node] := by
                have := hQ.2 (by rw [hd])
                rw [hd] at this
                exact this
              refine ⟨fun cyc hcyc => by simp at hcyc, fun _ => ?_⟩
              simp only
              rw [hp1]
              exact List.dropLast_concat
    exact ⟨hP, hQgen (fuel + 1) hP⟩

/-- `find_cycle_path` on a nonempty remaining set in which every node has a
predecessor: the reported list contains a genuine cycle of the graph. -/
theorem find_cycle_path_spec (g : Graph) (hndg : (keysOf g).Nodup)
    (remaining : List String) (hne : remaining ≠ [])
    (hpred : ∀ n ∈ remaining, ∃ u, (u, n) ∈ edgesOf g ∧ u ∈ remaining) :
    ∃ c, isCycleList g c ∧ ∀ x ∈ c, x ∈ find_cycle_path g remaining := by
  obtain ⟨r, rest, rfl⟩ := List.exists_cons_of_ne_nil hne
  have hfc : find_cycle_path g (r :: rest) =
      match dfsNode g (graphSize g + 1) r [] [] with
      | (_, _, some cyc) => cyc
      | (_, _, none) => r :: rest := rfl
  cases hd : dfsNode g (graphSize g + 1) r [] [] with
  | mk v1 rest1 =>
    obtain ⟨p1, oc⟩ := rest1
    cases oc with
    | some cyc =>
      have hfc2 : find_cycle_path g (r :: rest) = cyc := by
        rw [hfc, hd]
      have hvalid := ((dfs_spec g (graphSize g + 1)).1 r [] []
        (by trivial)).1 cyc (by rw [hd])
      refine ⟨cyc, hvalid, ?_⟩
      rw [hfc2]
      exact fun x hx => hx
    | none =>
      have hfc2 : find_cycle_path g (r :: rest) = r :: rest := by
        rw [hfc, hd]
      obtain ⟨c, hc, hcsub⟩ := exists_cycle_of_pred g hndg (r :: rest)
        (by simp) hpred
      refine ⟨c, hc, ?_⟩
      rw [hfc2]
      exact hcsub


/-! ### Producers recorded by extraction are interaction names -/

theorem bind_eq_ok {α β : Type} (x : Except VError α)
    (f : α → Except VError β) (v : β) (h : (x >>= f) = .ok v) :
    ∃ a, x = .ok a ∧ f a = .ok v := by
  cases x with
  | error e => rw [bind_err] at h; exact absurd h (by simp)
  | ok a => exact ⟨a, rfl, by rw [bind_ok] at h; exact h⟩

theorem foldlM_inv {σ α : Type} (P : σ → Prop) (f : σ → α → Except VError σ)
    (l : List α)
    (hstep : ∀ s a, a ∈ l → P s → ∀ s', f s a = .ok s' → P s') :
    ∀ (s s' : σ), l.foldlM f s = .ok s' → P s → P s' := by
  induction l with
  | nil =>
    intro s s' h hs
    rw [List.foldlM_nil] at h
    obtain rfl := Except.ok.inj h
    exact hs
  | cons a l ih =>
    intro s s' h hs
    rw [List.foldlM_cons] at h
    obtain ⟨s1, h1, h2⟩ := bind_eq_ok _ _ _ h
    exact ih (fun t b hb => hstep t b (List.mem_cons_of_mem a hb)) s1 s' h2
      (hstep s a (List.mem_cons_self a l) hs s1 h1)

theorem mem_mapInsert_elim {β : Type} (m : List (String × β)) (k : String)
    (v : β) (kv : String × β) (h : kv ∈ mapInsert m k v) :
    kv = (k, v) ∨ kv ∈ m := by
  induction m with
  | nil =>
    rw [show mapInsert [] k v = [(k, v)] from rfl] at h
    exact Or.inl (List.mem_singleton.mp h)
  | cons kw rest ih =>
    obtain ⟨a, b⟩ := kw
    by_cases hk : a = k
    · rw [show mapInsert ((a, b) :: rest) k v =
        if a = k then (k, v) :: rest else (a, b) :: mapInsert rest k v
        from rfl, if_pos hk] at h
      rcases List.mem_cons.mp h with h1 | h1
      · exact Or.inl h1
      · exact Or.inr (List.mem_cons_of_mem _ h1)
    · rw [show mapInsert ((a, b) :: rest) k v =
        if a = k then (k, v) :: rest else (a, b) :: mapInsert rest k v
        from rfl, if_neg hk] at h
      rcases List.mem_cons.mp h with h1 | h1
      · exact Or.inr (h1 ▸ List.mem_cons_self _ _)
      · rcases ih h1 with h2 | h2
        · exact Or.inl h2
        · exact Or.inr (List.mem_cons_of_mem _ h2)

theorem mem_insertSet_elim (s : List String) (x a : String)
    (h : a ∈ insertSet s x) : a ∈ s ∨ a = x := by
  unfold insertSet at h
  by_cases hm : x ∈ s
  · rw [if_pos hm] at h
    exact Or.inl h
  · rw [if_neg hm] at h
    rcases List.mem_append.mp h with h1 | h1
    · exact Or.inl h1
    · exact Or.inr (List.mem_singleton.mp h1)

theorem producersFrom_mono (m : PMap) (A1 A2 : List String)
    (hsub : ∀ x ∈ A1, x ∈ A2) (h : producersFrom m A1) :
    producersFrom m A2 :=
  fun kv hkv a ha => hsub a (h kv hkv a ha)

theorem vu_producers (i : InteractionInfo) (dp : List String) (pn : String)
    (A : List String) (hiA : i.action ∈ A) :
    ∀ (m m' : PMap), validate_and_update_parameter_usage i dp m pn = .ok m' →
      producersFrom m A → producersFrom m' A := by
  intro m m' h hm
  unfold validate_and_update_parameter_usage at h
  refine foldlM_inv (fun mm => producersFrom mm A) _ i.parameter_flows
    ?_ m m' h hm
  intro mm fl _ hmm m2 hstep
  by_cases hd : fl.parameter ∈ dp
  · rw [if_pos hd] at hstep
    cases hl : mapLookup mm fl.parameter with
    | none =>
      rw [hl] at hstep
      obtain rfl := Except.ok.inj hstep
      exact hmm
    | some info =>
      rw [hl] at hstep
      simp only [] at hstep
      by_cases hout : fl.direction = "out"
      · rw [if_pos hout] at hstep
        obtain rfl := Except.ok.inj hstep
        intro kv hkv a ha
        rcases mem_mapInsert_elim mm fl.parameter _ kv hkv with rfl | hkv'
        · rcases mem_insertSet_elim info.producers i.action a ha with h1 | rfl
          · exact hmm (fl.parameter, info)
              (lookup_mem mm fl.parameter info hl) a h1
          · exact hiA
        · exact hmm kv hkv' a ha
      · rw [if_neg hout] at hstep
        by_cases hin : fl.direction = "in"
        · rw [if_pos hin] at hstep
          obtain rfl := Except.ok.inj hstep
          intro kv hkv a ha
          rcases mem_mapInsert_elim mm fl.parameter _ kv hkv with rfl | hkv'
          · exact hmm (fl.parameter, info)
              (lookup_mem mm fl.parameter info hl) a ha
          · exact hmm kv hkv' a ha
        · rw [if_neg hin] at hstep
          exact absurd hstep (by simp)
  · rw [if_neg hd] at hstep
    exact absurd hstep (by simp)

theorem ep_producers (c : AstNode) :
    ∀ (st st' : List String × PMap), extract_parameters c st = .ok st' →
      (∀ kv ∈ st.2, kv.2.producers = ([] : List String)) →
      ∀ kv ∈ st'.2, kv.2.producers = [] := by
  intro st st' h hst
  unfold extract_parameters at h
  refine foldlM_inv (fun s => ∀ kv ∈ s.2, kv.2.producers = []) _ _
    ?_ st st' h hst
  intro s a _ hs s2 hstep
  by_cases hp : a.nodeType = AstNodeType.ParameterDecl
  · rw [if_pos hp] at hstep
    obtain ⟨nmty, hext, hpure⟩ := bind_eq_ok _ _ _ hstep
    obtain ⟨nm, ty⟩ := nmty
    have hs2 : (insertSet s.1 nm,
        mapInsert s.2 nm ⟨nm, ty, [], []⟩) = s2 := Except.ok.inj hpure
    rw [← hs2]
    intro kv hkv
    rcases mem_mapInsert_elim s.2 nm _ kv hkv with rfl | hkv'
    · rfl
    · exact hs kv hkv'
  · rw [if_neg hp] at hstep
    obtain rfl := Except.ok.inj hstep
    exact hs

theorem ei_producers (sec : AstNode) (dp : List String) (pn : String) :
    ∀ (st st' : List InteractionInfo × PMap),
      extract_interactions sec dp st pn = .ok st' →
      producersFrom st.2 (st.1.map (·.action)) →
      producersFrom st'.2 (st'.1.map (·.action)) := by
  intro st st' h hst
  unfold extract_interactions at h
  refine foldlM_inv (fun s => producersFrom s.2 (s.1.map (·.action))) _ _
    ?_ st st' h hst
  intro s item _ hs s2 hstep
  by_cases hit : item.nodeType = AstNodeType.InteractionItem
  · rw [if_pos hit] at hstep
    refine foldlM_inv (fun s => producersFrom s.2 (s.1.map (·.action))) _ _
      ?_ s s2 hstep hs
    intro t c _ ht t2 htstep
    revert htstep
    cases hct : c.nodeType <;> intro htstep
    all_goals first
      | (obtain rfl := Except.ok.inj htstep
         exact ht)
      | (obtain ⟨mm, hvu, hp⟩ := bind_eq_ok _ _ _ htstep
         have ht2 := Except.ok.inj hp
         rw [← ht2]
         refine vu_producers _ dp pn _ (by simp) t.2 mm hvu
           (producersFrom_mono t.2 _ _ (fun x hx => by
             rw [List.map_append, List.mem_append]
             exact Or.inl hx) ht))
  · rw [if_neg hit] at hstep
    obtain rfl := Except.ok.inj hstep
    exact hs

theorem collect_producers_sub (p : AstNode) (name : String)
    (d : List String) (inters : List InteractionInfo) (pinfo : PMap)
    (hc : collectProtocol p = .ok (name, d, inters, pinfo)) :
    producersFrom pinfo (inters.map (·.action)) := by
  unfold collectProtocol at hc
  obtain ⟨pn, hn, hc2⟩ := bind_eq_ok _ _ _ hc
  obtain ⟨st, hst, hc3⟩ := bind_eq_ok _ _ _ hc2
  obtain ⟨r, hr, hc4⟩ := bind_eq_ok _ _ _ hc3
  have hq : (pn, st.1, r.1, r.2) = (name, d, inters, pinfo) :=
    Except.ok.inj hc4
  have hr1 : r.1 = inters := congrArg (fun x => x.2.2.1) hq
  have hr2 : r.2 = pinfo := congrArg (fun x => x.2.2.2) hq
  have hP1 : ∀ kv ∈ st.2, kv.2.producers = ([] : List String) := by
    refine foldlM_inv (fun s => ∀ kv ∈ s.2, kv.2.producers = []) _ _
      ?_ _ _ hst ?_
    · intro s c _ hs s' hstep
      by_cases hps : c.nodeType = AstNodeType.ParametersSection
      · rw [if_pos hps] at hstep
        exact ep_producers c s s' hstep hs
      · rw [if_neg hps] at hstep
        obtain rfl := Except.ok.inj hstep
        exact hs
    · intro kv hkv
      exact absurd hkv (List.not_mem_nil kv)
  have hP2 : producersFrom r.2 (r.1.map (·.action)) := by
    refine foldlM_inv (fun s => producersFrom s.2 (s.1.map (·.action))) _ _
      ?_ _ _ hr ?_
    · intro s c _ hs s' hstep
      by_cases his : c.nodeType = AstNodeType.InteractionSection
      · rw [if_pos his] at hstep
        exact ei_producers c st.1 pn s s' hstep hs
      · rw [if_neg his] at hstep
        obtain rfl := Except.ok.inj hstep
        exact hs
    · intro kv hkv a ha
      exact absurd (hP1 kv hkv ▸ ha) (List.not_mem_nil a)
  rw [hr1, hr2] at hP2
  exact hP2


/-! ### Assembly of the causality characterization -/

theorem graphInit_keys_eq (inters : List InteractionInfo)
    (hnd : (inters.map (·.action)).Nodup) :
    keysOf (graphInit inters) = inters.map (·.action) := by
  unfold graphInit
  rw [keysOf_fold_insert_eq inters [] [] (by simpa [keysOf] using hnd)]
  rfl

theorem nodup_subset_full (l l2 : List String) (hnd : l.Nodup)
    (hsub : ∀ x ∈ l, x ∈ l2) (h2nd : l2.Nodup)
    (hlen : l2.length ≤ l.length) : ∀ x ∈ l2, x ∈ l := by
  have h1 : l.toFinset.card = l.length := List.toFinset_card_of_nodup hnd
  have h1' : l2.toFinset.card = l2.length := List.toFinset_card_of_nodup h2nd
  have h2 : l.toFinset ⊆ l2.toFinset := by
    intro x hx
    rw [List.mem_toFinset] at hx ⊢
    exact hsub x hx
  have heq : l.toFinset = l2.toFinset :=
    Finset.eq_of_subset_of_card_le h2 (by omega)
  intro x hx
  rw [← List.mem_toFinset, ← heq, List.mem_toFinset] at hx
  exact hx

/-- The passes after the causality pass never produce a
`causalityViolation`-shaped error. -/
theorem rest_no_causality (inters : List InteractionInfo) (pinfo : PMap)
    (name pn2 : String) (cyc : List String) :
    (validate_completeness pinfo name >>= fun _ =>
      validate_enactability inters pinfo name) ≠
      .error (.causalityViolation pn2 cyc) := by
  intro h
  rw [show validate_completeness pinfo name = .ok () from rfl, bind_ok] at h
  rcases validate_enactability_error inters pinfo name _ h with
    ⟨i, -, he, -⟩ | ⟨i, -, fl, -, -, he⟩ <;> exact VError.noConfusion he

/-- C2 (corrected): for a protocol whose interactions bear pairwise
distinct action names and which passes the reachability and
flow-consistency passes, flow validation fails with a `CausalityViolation`
if and only if Kahn's algorithm on the analyzer's precedence graph (edges
producer → consumer as the code builds them, with the code's
parallel-branch exception) fails to emit every node; and any reported
interaction-name list contains a genuine cycle of that graph. -/
theorem c2_theorem (p : AstNode) (name : String) (d : List String)
    (inters : List InteractionInfo) (pinfo : PMap)
    (hc : collectProtocol p = .ok (name, d, inters, pinfo))
    (hnd : (inters.map (·.action)).Nodup)
    (hu : validate_unreachable_interactions pinfo inters name = .ok ())
    (hf : validate_flow_consistency pinfo inters name = .ok ()) :
    ((∃ cyc, validate_protocol_parameter_flow p =
        .error (.causalityViolation name cyc)) ↔
      ¬ ∀ n ∈ keysOf (buildPrecedence pinfo inters),
          n ∈ kahnRun (buildPrecedence pinfo inters) inters) ∧
    ∀ cyc, validate_protocol_parameter_flow p =
        .error (.causalityViolation name cyc) →
      ∃ c, isCycleList (buildPrecedence pinfo inters) c ∧
        ∀ x ∈ c, x ∈ cyc := by
  have hps := collect_producers_sub p name d inters pinfo hc
  have hinv := buildPrecedence_inv pinfo inters hps
  have hgkeys : keysOf (buildPrecedence pinfo inters) =
      inters.map (·.action) := by
    rw [hinv.1, graphInit_keys_eq inters hnd]
  have hndg : (keysOf (buildPrecedence pinfo inters)).Nodup := by
    rw [hgkeys]
    exact hnd
  have hsucc : ∀ u w, w ∈ lookupAdj (buildPrecedence pinfo inters) u →
      w ∈ keysOf (buildPrecedence pinfo inters) := by
    intro u w hw
    rw [hgkeys]
    exact hinv.2 u w hw
  have hdegkeys : keysOf (buildPrecedence pinfo inters) =
      keysOf (degreeInit inters) := by
    rw [hgkeys, degreeInit_keys_eq inters hnd]
  obtain ⟨hKnd, hKsub, hstuck⟩ :=
    kahnRun_spec (buildPrecedence pinfo inters) inters hndg hdegkeys hsucc
  have hglen : (keysOf (buildPrecedence pinfo inters)).length =
      inters.length := by
    rw [hgkeys]
    exact List.length_map _ _
  have hiff : (kahnRun (buildPrecedence pinfo inters) inters).length =
      inters.length ↔
      ∀ n ∈ keysOf (buildPrecedence pinfo inters),
        n ∈ kahnRun (buildPrecedence pinfo inters) inters := by
    constructor
    · intro hlen
      exact nodup_subset_full _ _ hKnd hKsub hndg (by omega)
    · intro hall
      have h1 := nodup_subset_length _ _ hKnd hKsub
      have h2 := nodup_subset_length _ _ hndg hall
      omega
  have hpipe := pipeline_eq p name d inters pinfo hc
  rw [hu, bind_ok, hf, bind_ok] at hpipe
  rcases validate_causality_shape pinfo inters name with hok | ⟨cyc0, herr⟩
  · rw [hok, bind_ok] at hpipe
    constructor
    · constructor
      · rintro ⟨cyc, hcv⟩
        rw [hpipe] at hcv
        exact absurd hcv (rest_no_causality inters pinfo name name cyc)
      · intro hnot
        exact absurd (hiff.mp ((validate_causality_ok_iff pinfo inters
          name).mp hok)) hnot
    · intro cyc hcv
      rw [hpipe] at hcv
      exact absurd hcv (rest_no_causality inters pinfo name name cyc)
  · rw [herr, bind_err] at hpipe
    obtain ⟨hlen, hpayload⟩ :=
      validate_causality_error pinfo inters name _ herr
    have hcyc0 : cyc0 = find_cycle_path (buildPrecedence pinfo inters)
        ((inters.map (·.action)).filter
          (fun a => a ∉ kahnRun (buildPrecedence pinfo inters) inters)) :=
      (VError.causalityViolation.inj hpayload).2
    constructor
    · constructor
      · intro _
        intro hall
        exact hlen (hiff.mpr hall)
      · intro _
        exact ⟨cyc0, hpipe⟩
    · intro cyc hcv
      rw [hpipe] at hcv
      have hceq : cyc0 = cyc :=
        (VError.causalityViolation.inj (Except.error.inj hcv)).2
      have hne : (inters.map (·.action)).filter
          (fun a => a ∉ kahnRun (buildPrecedence pinfo inters) inters) ≠
          [] := by
        intro hrem
        apply hlen
        apply hiff.mpr
        intro n hnK
        by_contra hnotord
        have hnact : n ∈ inters.map (·.action) := by
          rw [← hgkeys]
          exact hnK
        have : n ∈ (inters.map (·.action)).filter
            (fun a => a ∉ kahnRun (buildPrecedence pinfo inters) inters) :=
          List.mem_filter.mpr ⟨hnact, by simpa using hnotord⟩
        rw [hrem] at this
        exact List.not_mem_nil n this
      have hpred : ∀ n ∈ (inters.map (·.action)).filter
          (fun a => a ∉ kahnRun (buildPrecedence pinfo inters) inters),
          ∃ u, (u, n) ∈ edgesOf (buildPrecedence pinfo inters) ∧
            u ∈ (inters.map (·.action)).filter
              (fun a => a ∉ kahnRun (buildPrecedence pinfo inters)
                inters) := by
        intro n hn
        obtain ⟨hnact, hdec⟩ := List.mem_filter.mp hn
        have hnotord : n ∉ kahnRun (buildPrecedence pinfo inters) inters :=
          by simpa using hdec
        have hnK : n ∈ keysOf (buildPrecedence pinfo inters) := by
          rw [hgkeys]
          exact hnact
        obtain ⟨u, hedge, hunotord⟩ :=
          inCount_pos_elim _ _ _ (hstuck n hnK hnotord)
        have huK : u ∈ keysOf (buildPrecedence pinfo inters) :=
          edges_src_mem _ (u, n) hedge
        have huact : u ∈ inters.map (·.action) := by
          rw [← hgkeys]
          exact huK
        exact ⟨u, hedge,
          List.mem_filter.mpr ⟨huact, by simpa using hunotord⟩⟩
      obtain ⟨c, hcval, hcsub⟩ := find_cycle_path_spec
        (buildPrecedence pinfo inters) hndg _ hne hpred
      refine ⟨c, hcval, ?_⟩
      rw [← hceq, hcyc0]
      exact hcsub


/-- C2 witness: the repository's own circular `BadProtocol` (two
interactions with distinct action names feeding each other) satisfies the
theorem's hypotheses, Kahn's algorithm fails to emit every node, and flow
validation reports a `CausalityViolation` for it. -/
theorem c2_witness :
    ∃ cyc, validate_protocol_parameter_flow c2wEx =
      .error (.causalityViolation "BadProtocol" cyc) :=
  (c2_theorem c2wEx "BadProtocol" c2wD c2wInters c2wPinfo
    (by decide) (by decide) (by decide) (by decide)).1.mpr (by decide)

end Bmpp
